import Mathlib

/-!
Verification development for the usvfs shared directory tree
(src/shared/directory_tree.h) and the hook-manager singleton
(src/usvfs/hookmanager.cpp).

The directory tree is embedded as an explicit node store (a list of node
records addressed by index), mirroring the shared-memory arena in which all
nodes of the C++ tree live.  Child maps are association lists ordered by the
case-insensitive comparator `CILess` (`_stricmp`, i.e. ASCII case folding).
Weak pointers (`m_Parent`, `m_Self`) are stored as optional node indices;
records are never removed from the store, which is faithful for all the
traces used here (none of them destroys a node that is still referenced).

Paths are modelled as lists of components.  The repository parses path
strings with `boost::filesystem::path` plus a helper `nextIter` whose
definition is not under src/; per spec section 6.4 both separators are
accepted and empty components are elided, so a path is exactly its list of
non-empty components.

Allocation from the shared-memory arena can fail (`bi::bad_alloc`); this is
modelled by an allocation budget carried in the store: constructing a node
consumes one unit and fails when the budget is exhausted.
-/

namespace Usvfs

/-- ASCII case folding as performed by `_stricmp` inside
`DirectoryTree::CILess`: the bytes A..Z map to a..z, every other byte keeps
its value. -/
def foldChar (c : Char) : Char :=
  if 'A' ≤ c ∧ c ≤ 'Z' then Char.ofNat (c.toNat + 32) else c

/-- Case-folded key of a name: the list of folded characters.  Two names are
treated as the same key by `CILess` exactly when their folded lists agree. -/
def ciKey (s : String) : List Char := s.toList.map foldChar

/-- Case-insensitive equality of two names (`_stricmp(...) == 0`). -/
def ciKeyEq (a b : String) : Bool := ciKey a == ciKey b

/-- Strict lexicographic comparison of folded character lists
(`_stricmp(...) < 0`), used for the ordering of the child map. -/
def ciListLt : List Char → List Char → Bool
  | [], [] => false
  | [], _ :: _ => true
  | _ :: _, [] => false
  | a :: as, b :: bs =>
      if a.toNat < b.toNat then true
      else if b.toNat < a.toNat then false
      else ciListLt as bs

/-- Name comparison of `CILess`. -/
def ciLt (a b : String) : Bool := ciListLt (ciKey a) (ciKey b)

/-- A child map (`NodeMapT`): an association list from names to node
indices, kept in `CILess` order by the insertion operations. -/
abbrev NMap := List (String × Nat)

/-- Lookup in a child map (`m_Nodes.find`), comparing keys with `CILess`
equivalence. -/
def mfind : NMap → String → Option Nat
  | [], _ => none
  | (k, v) :: rest, c => if ciKeyEq k c then some v else mfind rest c

/-- Insertion in the style of `std::map::insert`: if a key equivalent under
`CILess` is present the map is unchanged and the existing entry with the
flag `false` is reported; otherwise the pair is inserted at its sorted
position and `true` is reported. -/
def minsert : NMap → String → Nat → NMap × Bool
  | [], c, v => ([(c, v)], true)
  | (k, w) :: rest, c, v =>
      if ciKeyEq k c then ((k, w) :: rest, false)
      else if ciLt c k then ((c, v) :: (k, w) :: rest, true)
      else
        let r := minsert rest c v
        ((k, w) :: r.1, r.2)

/-- Assignment in the style of `m_Nodes[key] = value`: if an equivalent key
is present its mapped value is replaced (the stored key is kept, as
`std::map` does); otherwise the pair is inserted at its sorted position. -/
def massign : NMap → String → Nat → NMap
  | [], c, v => [(c, v)]
  | (k, w) :: rest, c, v =>
      if ciKeyEq k c then (k, v) :: rest
      else if ciLt c k then (c, v) :: (k, w) :: rest
      else (k, w) :: massign rest c v

/-- Removal of a child entry (`m_Nodes.erase`). -/
def mremove (m : NMap) (c : String) : NMap :=
  m.filter (fun kv => !ciKeyEq kv.1 c)

/-- One `DirectoryTree` node: flags byte, weak parent and self references
(optional node indices), name, payload and the ordered child map.  Payloads
are modelled as natural numbers; `createDataEmpty` yields `0`. -/
structure NodeRec where
  flags : Nat
  parent : Option Nat
  selfRef : Option Nat
  name : String
  data : Nat
  nodes : NMap
deriving DecidableEq

/-- The node store: the shared-memory arena holding every node record, plus
the remaining allocation budget (number of node constructions that still
succeed before `bi::bad_alloc`). -/
structure St where
  recs : List NodeRec
  budget : Nat
deriving DecidableEq

/-- Record of a node index, if the index is valid. -/
def getRec (st : St) (i : Nat) : Option NodeRec := st.recs.get? i

/-- Replace the record at an index. -/
def setRec (st : St) (i : Nat) (r : NodeRec) : St :=
  { st with recs := st.recs.set i r }

/-- Child map of a node (`m_Nodes`); empty for an invalid index. -/
def childrenOf (st : St) (i : Nat) : NMap :=
  ((getRec st i).map NodeRec.nodes).getD []

/-- Write the child map of a node. -/
def setChildren (st : St) (i : Nat) (m : NMap) : St :=
  match getRec st i with
  | some r => setRec st i { r with nodes := m }
  | none => st

/-- Write the self reference of a node (`m_Self = ...`). -/
def setSelfRef (st : St) (i : Nat) (p : Option Nat) : St :=
  match getRec st i with
  | some r => setRec st i { r with selfRef := p }
  | none => st

/-- Write the parent reference of a node (`m_Parent = ...`). -/
def setParent (st : St) (i : Nat) (p : Option Nat) : St :=
  match getRec st i with
  | some r => setRec st i { r with parent := p }
  | none => st

/-- Self reference of a node (`m_Self`), as the parent field will receive
it: absent for an invalid index or when never assigned. -/
def selfOf (st : St) (i : Nat) : Option Nat :=
  (getRec st i).bind NodeRec.selfRef

/-- Flags value of a node, `0` for an invalid index. -/
def flagsOf (st : St) (i : Nat) : Nat :=
  ((getRec st i).map NodeRec.flags).getD 0

/-- Payload of a node. -/
def dataOf (st : St) (i : Nat) : Option Nat :=
  (getRec st i).map NodeRec.data

/-- Name of a node, empty for an invalid index. -/
def nameOf (st : St) (i : Nat) : String :=
  ((getRec st i).map NodeRec.name).getD ""

/-- FLAG_DIRECTORY. -/
def FLAG_DIRECTORY : Nat := 1

/-- FLAG_DUMMY. -/
def FLAG_DUMMY : Nat := 2

/-- DirectoryTree::hasFlag. -/
def hasFlag (st : St) (i : Nat) (f : Nat) : Bool :=
  flagsOf st i &&& f ≠ 0

/-- DirectoryTree::isDirectory: `hasFlag(FLAG_DIRECTORY)`. -/
def isDirectory (st : St) (i : Nat) : Bool := hasFlag st i FLAG_DIRECTORY

/-- TreeContainer::createSubNode.  The `DirectoryTree` constructor stores the
name, a null parent, a default (empty) self reference, the payload and the
flags; `m_Flags` is a `uint8_t`, so the flags argument is truncated.  One
budget unit is consumed; with budget `0` the arena allocation throws
`bi::bad_alloc`, modelled as `none`. -/
def createSubNode (st : St) (name : String) (flags : Nat) (data : Nat) :
    Option (Nat × St) :=
  match st.budget with
  | 0 => none
  | b + 1 =>
      some (st.recs.length,
        { recs := st.recs ++
            [{ flags := flags % 256, parent := none, selfRef := none,
               name := name, data := data, nodes := [] }],
          budget := b })

/-- The tail of addNode for the final component, once the node to attach is
known (either found among the root children or freshly constructed): set
its self reference, set its parent from the self reference of `base`, then
attach it to the child map of `base` — by assignment when overwriting, by
insert (reporting failure as a null result) otherwise. -/
def attachFinal (st : St) (base : Nat) (c : String) (nid : Nat)
    (overwrite : Bool) : Except Unit (Option Nat) × St :=
  let st1 := setSelfRef st nid (some nid)
  let st2 := setParent st1 nid (selfOf st1 base)
  if overwrite then
    (.ok (some nid), setChildren st2 base (massign (childrenOf st2 base) c nid))
  else
    let r := minsert (childrenOf st2 base) c nid
    if r.2 then (.ok (some nid), setChildren st2 base r.1)
    else (.ok none, st2)

/-- The intermediate-component step of addNode when no child with the
current name exists: insert the freshly constructed dummy into the child
map of `base`, then set its self reference and its parent. -/
def attachDummy (st : St) (base : Nat) (c : String) (nid : Nat) : St :=
  let st1 := setChildren st base (minsert (childrenOf st base) c nid).1
  let st2 := setSelfRef st1 nid (some nid)
  setParent st2 nid (selfOf st2 base)

/-- TreeContainer::addNode, with the path already split into components.
`rootId` is the tree the container manages (`this->get()`), `base` the node
the current component is resolved against.  Note that on the final
component the existence check `this->get()->node(...)` runs against the
children of the ROOT, not of `base`; the transcription keeps this.
Returns `.error ()` when an arena allocation fails (`bi::bad_alloc`),
`.ok none` when `overwrite` is false and the entry already existed, and
otherwise the attached node; the (possibly partially mutated) store is
returned in either case, as the C++ exception unwinds without undoing
earlier attachments. -/
def addNode (st : St) (rootId : Nat) (base : Nat) (comps : List String)
    (data : Nat) (overwrite : Bool) (flags : Nat) :
    Except Unit (Option Nat) × St :=
  match comps with
  | [] => (.ok none, st)
  | [c] =>
      match mfind (childrenOf st rootId) c with
      | some nid => attachFinal st base c nid overwrite
      | none =>
          match createSubNode st c flags data with
          | none => (.error (), st)
          | some (nid, st1) => attachFinal st1 base c nid overwrite
  | c :: rest =>
      match mfind (childrenOf st base) c with
      | some sub => addNode st rootId sub rest data overwrite flags
      | none =>
          match createSubNode st c (FLAG_DIRECTORY ||| FLAG_DUMMY) 0 with
          | none => (.error (), st)
          | some (nid, st1) =>
              addNode (attachDummy st1 base c nid) rootId nid rest data overwrite flags

/-- TreeContainer::addFile: a single insertion attempt (the catch of
`bi::bad_alloc` followed by migration and retry is modelled separately). -/
def addFile (st : St) (rootId : Nat) (p : List String) (d : Nat)
    (flags : Nat) (overwrite : Bool) : Except Unit (Option Nat) × St :=
  addNode st rootId rootId p d overwrite flags

/-- TreeContainer::addDirectory: like addFile with FLAG_DIRECTORY forced. -/
def addDirectory (st : St) (rootId : Nat) (p : List String) (d : Nat)
    (flags : Nat) (overwrite : Bool) : Except Unit (Option Nat) × St :=
  addNode st rootId rootId p d overwrite (flags ||| FLAG_DIRECTORY)

/-- DirectoryTree::findNode (the private recursion): resolve each component
in the child map of the current node; the last component must name a direct
child of the node reached so far.  The public entry point dereferences
`path.begin()`, which is only meaningful for a non-empty path; an empty
component list is a miss. -/
def findNodeAux (st : St) : Nat → List String → Option Nat
  | _, [] => none
  | base, c :: rest =>
      match mfind (childrenOf st base) c, rest with
      | some sub, [] => some sub
      | some sub, _ :: _ => findNodeAux st sub rest
      | none, _ => none

/-- DirectoryTree::numNodes: number of direct children. -/
def numNodes (st : St) (i : Nat) : Nat := (childrenOf st i).length

/-- DirectoryTree::numNodesRecursive, transcribed: the result starts from
`numNodes() + 1` and then adds `numNodesRecursive()` of every child.  The
recursion is guarded by fuel because the store can describe cyclic child
graphs (which make the C++ recursion diverge); `none` means the fuel ran
out. -/
def numNodesRecursive (st : St) (i : Nat) : Nat → Option Nat
  | 0 => none
  | fuel + 1 =>
      (childrenOf st i).foldl
        (fun acc kv => acc.bind (fun a =>
          (numNodesRecursive st kv.2 fuel).map (a + ·)))
        (some (numNodes st i + 1))

/-- DirectoryTree::path, as a component list.  A node whose parent weak
pointer is empty is treated as a root: an empty name yields the empty path,
otherwise the path is just the name (the C++ appends a trailing separator,
which contributes no component).  Fuel guards against cyclic parent
chains. -/
def pathOf (st : St) (i : Nat) : Nat → Option (List String)
  | 0 => none
  | fuel + 1 =>
      match getRec st i with
      | none => none
      | some r =>
          match r.parent with
          | none => some (if r.name = "" then [] else [r.name])
          | some p => (pathOf st p fuel).map (· ++ [r.name])

/-- The store holding exactly the tree root, as built by the TreeMeta
constructor: name `""`, flags `true` (that is `1`), null parent, empty
payload, no children. -/
def initialSt (budget : Nat) : St :=
  { recs := [{ flags := 1, parent := none, selfRef := none, name := "",
               data := 0, nodes := [] }],
    budget := budget }

/-- Index of the root in `initialSt`. -/
def rootId : Nat := 0

/-- Separator test for the two accepted path separators. -/
def isSep (c : Char) : Bool := c == '/' || c == '\\'

/-- Modelled from the spec: `wildcard::PartialMatch` lives in wildcard.h,
which is not under src/.  Spec section 4.1: the pattern is a wildcard
consumed one path component at a time; `*` matches any run of characters
inside a component, `?` one character, literals compare case-insensitively;
when the name is fully consumed the residual pattern (after a component
separator, if one follows) is returned, `none` on mismatch.  Every
recursive call shortens name plus pattern, so the fuel of the wrapper below
is always sufficient and the `none` at exhausted fuel is never reached. -/
def wildcardMatchF : Nat → List Char → List Char → Option (List Char)
  | 0, _, _ => none
  | _ + 1, [], [] => some []
  | fuel + 1, [], c :: ps =>
      if isSep c then some ps
      else if c = '*' then wildcardMatchF fuel [] ps
      else none
  | _ + 1, _ :: _, [] => none
  | fuel + 1, n :: ns, c :: ps =>
      if c = '*' then
        match wildcardMatchF fuel (n :: ns) ps with
        | some r => some r
        | none => wildcardMatchF fuel ns (c :: ps)
      else if c = '?' then wildcardMatchF fuel ns ps
      else if isSep c then none
      else if foldChar c = foldChar n then wildcardMatchF fuel ns ps
      else none

/-- wildcard::PartialMatch with the always-sufficient fuel. -/
def wildcardMatch (n p : List Char) : Option (List Char) :=
  wildcardMatchF (n.length + p.length + 1) n p

/-- DirectoryTree::findLocal: walk the children in map order; a pattern of
the shape `*` followed by a separator descends one directory level; else a
partial match is attempted against the child name, the child is emitted
when the residual is empty or a lone `*`, and directories are searched
recursively with the residual pattern.  Fuel guards against cyclic child
graphs. -/
def findLocalAux (st : St) : Nat → Nat → List Char → List Nat
  | 0, _, _ => []
  | fuel + 1, i, pat =>
      (childrenOf st i).foldl
        (fun acc kv =>
          let cid := kv.2
          if 1 < pat.length ∧ pat.head? = some '*' ∧
              ((pat.get? 1).any isSep) = true ∧ isDirectory st cid = true then
            acc ++ findLocalAux st fuel cid (pat.drop 1)
          else
            match wildcardMatch (nameOf st cid).toList pat with
            | some rem =>
                let acc2 := if rem = [] ∨ rem = ['*'] then acc ++ [cid] else acc
                if isDirectory st cid then acc2 ++ findLocalAux st fuel cid rem
                else acc2
            | none => acc)
        []

/-- Index of the first wildcard character (`find_first_of("*?")`). -/
def firstWildIdx (cs : List Char) : Option Nat :=
  cs.findIdx? (fun c => c == '*' || c == '?')

/-- Last separator position at or before `p` (`find_last_of("\\/", p)`). -/
def lastSepUpTo (cs : List Char) (p : Nat) : Option Nat :=
  (List.range (p + 1)).foldl
    (fun acc j => if (cs.get? j).any isSep then some j else acc) none

/-- Split a character list at separators. -/
def splitComps : List Char → List (List Char)
  | [] => [[]]
  | c :: rest =>
      if isSep c then [] :: splitComps rest
      else
        match splitComps rest with
        | [] => [[c]]
        | g :: gs => (c :: g) :: gs

/-- Components of a path string: both separators split, empty components
are elided (spec section 6.4; `boost::filesystem::path` iteration plus the
`nextIter` helper, whose definition is not under src/). -/
def parseComps (cs : List Char) : List String :=
  ((splitComps cs).filter (fun g => !g.isEmpty)).map String.mk

/-- DirectoryTree::find: locate the literal prefix of the pattern (up to
the last separator before the first wildcard character), resolve it with
findNode and run findLocal on the remainder; without such a prefix the
whole pattern is matched locally. -/
def find (st : St) (fuel : Nat) (i : Nat) (pattern : String) : List Nat :=
  let cs := pattern.toList
  let fixedPart : Option Nat :=
    match firstWildIdx cs with
    | none => none
    | some 0 => none
    | some k => lastSepUpTo cs k
  match fixedPart with
  | some fp =>
      match findNodeAux st i (parseComps (cs.take fp)) with
      | some nd => findLocalAux st fuel nd (cs.drop (fp + 1))
      | none => []
  | none => findLocalAux st fuel i cs

/-- Copy the three fields `copyTree` assigns directly on the destination
node: flags, payload (dataAssign) and name. -/
def copyFields (st : St) (destId : Nat) (r : NodeRec) : St :=
  match getRec st destId with
  | some d => setRec st destId { d with flags := r.flags, data := r.data, name := r.name }
  | none => st

/-- TreeContainer::copyTree: copy flags, payload and name onto the
destination node, then copy each child of the reference node in map order:
construct a node with empty name, `true` flags and empty payload, set its
self reference BEFORE the recursive copy, copy the subtree, enter it in the
destination map under the copied name, and wire its parent to the
destination.  Fuel guards the recursion depth (a cyclic source diverges in
C++). -/
def copyTree : Nat → St → Nat → Nat → Option St
  | 0, _, _, _ => none
  | fuel + 1, st, destId, refId =>
      match getRec st refId with
      | none => none
      | some r =>
          r.nodes.foldlM
            (fun stAcc kv => do
              let (nid, stA) ← createSubNode stAcc "" 1 0
              let stB := setSelfRef stA nid (some nid)
              let stC ← copyTree fuel stB nid kv.2
              let stD := setChildren stC destId
                (massign (childrenOf stC destId) (nameOf stC nid) nid)
              pure (setParent stD nid (selfOf stD destId)))
            (copyFields st destId r)

/-- The loop body of copyTree over the reference children, as a named
function (definitionally the lambda inside copyTree). -/
def copyStep (fuel destId : Nat) (stAcc : St) (kv : String × Nat) : Option St := do
  let (nid, stA) ← createSubNode stAcc "" 1 0
  let stB := setSelfRef stA nid (some nid)
  let stC ← copyTree fuel stB nid kv.2
  let stD := setChildren stC destId
    (massign (childrenOf stC destId) (nameOf stC nid) nid)
  pure (setParent stD nid (selfOf stD destId))

/-- The tree-copying part of migration: `activateSHM` constructs the new
TreeMeta (root node with empty name, `true` flags, empty payload) in the
fresh arena and deep-copies the old tree into it. -/
def migrate (st : St) (srcRoot : Nat) (fuel : Nat) : Option (Nat × St) := do
  let (nroot, st1) ← createSubNode st "" 1 0
  let st2 ← copyTree fuel st1 nroot srcRoot
  pure (nroot, st2)

/-- Observable content of a single node: its flags and its payload. -/
def obsAt (st : St) (i : Nat) : Option (Nat × Nat) :=
  (getRec st i).map fun r => (r.flags, r.data)

/-- Observable content at a path below a node: for the empty path the node
itself, otherwise flags and payload of the node findNode reaches, if any.
Structural equality of two trees is agreement of this observation at every
path. -/
def obsSub (st : St) (i : Nat) : List String → Option (Nat × Nat)
  | [] => obsAt st i
  | c :: rest => (findNodeAux st i (c :: rest)).bind (obsAt st)

/-- The fields of a record that the structural observations read: flags,
payload, name and child map (the weak parent and self references are
excluded). -/
def coreOf (st : St) (i : Nat) : Option (Nat × Nat × String × NMap) :=
  (getRec st i).map fun r => (r.flags, r.data, r.name, r.nodes)

/-- Pairwise case-insensitive distinctness of the keys of a child map (the
ordering invariant a `std::map` with `CILess` maintains). -/
def keysCiDistinct : NMap → Bool
  | [] => true
  | (k, _) :: rest => rest.all (fun kv => !ciKeyEq kv.1 k) && keysCiDistinct rest

/-- Well-formedness of the subtree below a node, to a fuel-bounded depth:
the node exists, its child keys are pairwise distinct under `CILess`, each
key is case-insensitively equal to the name stored in the child, and the
children are recursively well-formed.  Fuel `0` rejects, so truth implies
the subtree depth is below the fuel. -/
def wfSub (st : St) : Nat → Nat → Bool
  | 0, _ => false
  | fuel + 1, i =>
      match getRec st i with
      | none => false
      | some r =>
          keysCiDistinct r.nodes &&
          r.nodes.all (fun kv => ciKeyEq kv.1 (nameOf st kv.2) && wfSub st fuel kv.2)

/-- All node indices of the subtree below `i` (to a fuel-bounded depth) are
below `bound`.  Fuel `0` rejects, so truth also bounds the subtree depth. -/
def subIdsOk (st : St) (bound : Nat) : Nat → Nat → Bool
  | 0, _ => false
  | fuel + 1, i =>
      decide (i < bound) &&
      (childrenOf st i).all (fun kv => subIdsOk st bound fuel kv.2)

/-- Closedness of the store: every child index stored in any record is a
valid index.  Holds for the initial store and is preserved by every tree
operation. -/
def closedSt (st : St) : Bool :=
  st.recs.all (fun r => r.nodes.all (fun kv => kv.2 < st.recs.length))

/-- A tree operation dispatched through the container: addFile,
addDirectory, clear (of the root), erase of a child of the node at a
path. -/
inductive Op where
  | file (p : List String) (d : Nat) (flags : Nat) (ow : Bool)
  | dir (p : List String) (d : Nat) (flags : Nat) (ow : Bool)
  | clearAll
  | eraseAt (p : List String) (k : String)
deriving DecidableEq

/-- Apply one operation to the store (ignoring the returned node). -/
def applyOp (st : St) : Op → St
  | .file p d fl ow => (addFile st rootId p d fl ow).2
  | .dir p d fl ow => (addDirectory st rootId p d fl ow).2
  | .clearAll => setChildren st rootId []
  | .eraseAt p k =>
      match findNodeAux st rootId p with
      | some i => setChildren st i (mremove (childrenOf st i) k)
      | none => st

/-- Apply a sequence of operations. -/
def applyOps (st : St) (ops : List Op) : St := ops.foldl applyOp st

/-- The invariant of spec section 3.2 item 5, over every record of the
store: a record with the DUMMY bit also has the DIRECTORY bit. -/
def dummyDirInv (st : St) : Bool :=
  st.recs.all (fun r => r.flags &&& FLAG_DUMMY == 0 || r.flags &&& FLAG_DIRECTORY != 0)

/-- Flag discipline for an operation: an addFile must not itself carry the
DUMMY bit (addDirectory always forces DIRECTORY alongside, so it needs no
restriction). -/
def opFlagsOk : Op → Bool
  | .file _ _ fl _ => fl &&& FLAG_DUMMY == 0
  | _ => true

/-- Line terminators that the ECMAScript `.` of `std::regex` does not
match. -/
def isLineTerm (c : Char) : Bool := c == '\n' || c == '\r'

/-- Whole-string matching of the arena-name pattern `(.*_)(\d+)` with
`std::regex_match` (ECMAScript grammar): a match exists iff the name has a
non-empty all-digit suffix directly preceded by an underscore, with no line
terminator in the part matched by `.*` (the dot does not match line
terminators).  Since a digit suffix cannot contain an underscore, the only
possible capture for `\d+` is the maximal digit suffix; the greedy `.*`
agrees.  Returns the two capture groups. -/
def regexSplit (s : String) : Option (String × String) :=
  let cs := s.toList
  let ds := (cs.reverse.takeWhile Char.isDigit).reverse
  let pre := cs.take (cs.length - ds.length)
  if ds.isEmpty then none
  else
    match pre.getLast? with
    | some '_' =>
        if pre.dropLast.any isLineTerm then none
        else some (String.mk pre, String.mk ds)
    | _ => none

/-- The TreeContainer constructor appends `_1` when the supplied shared
memory name does not match `(.*_)(\d+)`. -/
def attachName (s : String) : String :=
  match regexSplit s with
  | some _ => s
  | none => s ++ "_1"

/-- Failure modes of followupName: the usage_error for a non-matching name;
`boost::lexical_cast<int>` throwing on digits beyond the int range; and the
signed overflow (undefined behaviour) of `count + 1` at INT_MAX. -/
inductive NameErr where
  | invalidName
  | badLexicalCast
  | intOverflow
deriving DecidableEq

/-- Numeric value of a digit string. -/
def digitsVal (s : String) : Nat :=
  s.toList.foldl (fun a c => a * 10 + (c.toNat - '0'.toNat)) 0

/-- TreeContainer::followupName: re-match the current name against
`(.*_)(\d+)`, throw usage_error (InvalidName) when it does not match,
otherwise parse the digit group with `lexical_cast<int>` and append the
incremented value to the first group. -/
def followupName (s : String) : Except NameErr String :=
  match regexSplit s with
  | none => .error .invalidName
  | some (pre, ds) =>
      let v := digitsVal ds
      if 2147483647 < v then .error .badLexicalCast
      else if v = 2147483647 then .error .intOverflow
      else .ok (pre ++ toString (v + 1))

/-- Written from the words of spec section 6.1, for comparison with the
code: an arena name is `<base>_<generation>` with `<generation>` a positive
decimal integer with no leading zeros.  The generation is necessarily the
maximal digit suffix (a digit cannot be an underscore). -/
def specArenaNameGrammar (s : String) : Bool :=
  let cs := s.toList
  let ds := (cs.reverse.takeWhile Char.isDigit).reverse
  let pre := cs.take (cs.length - ds.length)
  !ds.isEmpty && pre.getLast? == some '_' && ds.head? != some '0'

/-- State of the HookManager singleton: the static `s_Instance` pointer (as
an instance identifier), the identifiers of instances whose constructor
succeeded and whose destructor has not yet run, and a source of fresh
identifiers. -/
structure HMState where
  sInstance : Option Nat
  alive : List Nat
  nextId : Nat
deriving DecidableEq

/-- The process state before any HookManager is constructed. -/
def hmInit : HMState := { sInstance := none, alive := [], nextId := 0 }

/-- HookManager::HookManager: throws `std::runtime_error` when `s_Instance`
is already set, leaving it unchanged; otherwise publishes the new object in
`s_Instance`. -/
def hmConstruct (st : HMState) : Except Unit Nat × HMState :=
  match st.sInstance with
  | some _ => (.error (), st)
  | none =>
      (.ok st.nextId,
        { sInstance := some st.nextId, alive := st.nextId :: st.alive,
          nextId := st.nextId + 1 })

/-- HookManager::~HookManager: removes the hooks and unregisters the
process; `s_Instance` is left untouched. -/
def hmDestruct (st : HMState) (i : Nat) : HMState :=
  { st with alive := st.alive.erase i }

/-- HookManager::instance: throws `std::runtime_error` when `s_Instance` is
null, otherwise returns the stored pointer. -/
def hmInstance (st : HMState) : Except Unit Nat :=
  match st.sInstance with
  | none => .error ()
  | some i => .ok i

/-- Trace for C1: `addFile("b", 5)` then `addFile("a/b", 7, overwrite)` on a
fresh tree. -/
def c1st : St :=
  (addFile (addFile (initialSt 10) rootId ["b"] 5 0 true).2
    rootId ["a", "b"] 7 0 true).2

/-- Trace for C2: a fresh tree with the single file `a`. -/
def c2st : St := (addFile (initialSt 10) rootId ["a"] 5 0 true).2

/-- Trace for C3: `addFile("a/b", 7)` on a fresh tree whose arena has room
for exactly one more node: the dummy directory `a` is created and attached,
then the allocation of the final node throws. -/
def c3failSt : St := (addFile (initialSt 1) rootId ["a", "b"] 7 0 true).2

/-- Trace for C4: `addFile("a/b", 3)`, `addFile("b", 5)`, then
`addFile("a/b", 7, overwrite = false)`. -/
def c4st : St :=
  (addFile (addFile (addFile (initialSt 10) rootId ["a", "b"] 3 0 true).2
    rootId ["b"] 5 0 true).2 rootId ["a", "b"] 7 0 false).2

/-- Trace for C6: a single `addFile("a", 5)` whose flags argument is
`FLAG_DUMMY`. -/
def c6ops : List Op := [Op.file ["a"] 5 FLAG_DUMMY true]

/-- The store after the C6 trace. -/
def c6st : St := applyOps (initialSt 10) c6ops

/-- Trace for C7 (and the source tree for the C5 witness): the three files
`a/b/c1.txt`, `a/b/c2.txt` and `a/d/e.txt` on a fresh tree. -/
def c7st : St :=
  (addFile (addFile (addFile (initialSt 20) rootId ["a", "b", "c1.txt"] 1 0 true).2
    rootId ["a", "b", "c2.txt"] 2 0 true).2 rootId ["a", "d", "e.txt"] 3 0 true).2

/-- Trace for C8: `addFile("Foo/Bar", 5)` on a fresh tree. -/
def c8st : St := (addFile (initialSt 10) rootId ["Foo", "Bar"] 5 0 true).2

/-- Correctness bundle for one copyTree call with destination `dest` and
source `src`: the store only grows, records other than the destination that
existed before are untouched, the destination carries the source name, and
in every later state that still agrees with the copy result on the
destination and the freshly allocated records, the observation below the
destination agrees with the observation below the source in the original
store, at every path. -/
def copyConc (st : St) (src dest : Nat) (st' : St) : Prop :=
  st.recs.length ≤ st'.recs.length ∧
  (∀ j, j ≠ dest → j < st.recs.length → coreOf st' j = coreOf st j) ∧
  nameOf st' dest = nameOf st src ∧
  (∀ st2 : St,
    (∀ j, (j = dest ∨ (st.recs.length ≤ j ∧ j < st'.recs.length)) →
      coreOf st2 j = coreOf st' j) →
    ∀ p, obsSub st2 dest p = obsSub st src p)

/-- Correctness bundle for the copyStep fold over a child list `l`: the
store only grows, records other than the destination are untouched, the
destination keeps its own flags, payload and name, and lookups below the
destination either hit a copy of the corresponding `l` entry or fall
through to the destination entries that predate the fold. -/
def kidsConc (st0 : St) (dest : Nat) (l : NMap) (st' : St) : Prop :=
  st0.recs.length ≤ st'.recs.length ∧
  (∀ j, j ≠ dest → j < st0.recs.length → coreOf st' j = coreOf st0 j) ∧
  obsAt st' dest = obsAt st0 dest ∧
  nameOf st' dest = nameOf st0 dest ∧
  (∀ st2 : St,
    (∀ j, (j = dest ∨ (st0.recs.length ≤ j ∧ j < st'.recs.length)) →
      coreOf st2 j = coreOf st' j) →
    ∀ (c : String) (rest : List String),
      obsSub st2 dest (c :: rest) =
        (match mfind l c with
         | some cid => obsSub st0 cid rest
         | none => (mfind (childrenOf st0 dest) c).bind
             (fun j => obsSub st2 j rest)))

/-- The post-migration store of the C5 witness: the C7 tree deep-copied
into a fresh root. -/
def c5dest : St := ((migrate c7st 0 20).map Prod.snd).getD (initialSt 0)

/-! Lemmas about the case-insensitive map operations. -/

theorem mfind_ci (m : NMap) (a b : String) (h : ciKey a = ciKey b) :
    mfind m a = mfind m b := by
  induction m with
  | nil => rfl
  | cons kv rest ih =>
      obtain ⟨k, v⟩ := kv
      simp only [mfind, ciKeyEq, h, ih]

/-! Lemmas about the store accessors. -/

theorem length_setRec (st : St) (i : Nat) (r : NodeRec) :
    (setRec st i r).recs.length = st.recs.length := by
  simp [setRec]

theorem getRec_setRec_self {st : St} {i : Nat} {r : NodeRec}
    (h : i < st.recs.length) : getRec (setRec st i r) i = some r := by
  simp [setRec, getRec, List.get?_set_eq_of_lt, h]

theorem getRec_setRec_ne {st : St} {i j : Nat} {r : NodeRec} (h : i ≠ j) :
    getRec (setRec st i r) j = getRec st j := by
  simp [setRec, getRec, List.get?_set_ne, h]

theorem length_setChildren (st : St) (i : Nat) (m : NMap) :
    (setChildren st i m).recs.length = st.recs.length := by
  unfold setChildren
  cases getRec st i <;> simp [length_setRec]

theorem length_setSelfRef (st : St) (i : Nat) (p : Option Nat) :
    (setSelfRef st i p).recs.length = st.recs.length := by
  unfold setSelfRef
  cases getRec st i <;> simp [length_setRec]

theorem length_setParent (st : St) (i : Nat) (p : Option Nat) :
    (setParent st i p).recs.length = st.recs.length := by
  unfold setParent
  cases getRec st i <;> simp [length_setRec]

theorem getRec_setChildren_ne {st : St} {i j : Nat} {m : NMap} (h : i ≠ j) :
    getRec (setChildren st i m) j = getRec st j := by
  unfold setChildren
  cases getRec st i with
  | none => rfl
  | some r => exact getRec_setRec_ne h

theorem getRec_lt_length {st : St} {i : Nat} (h : i < st.recs.length) :
    ∃ r, getRec st i = some r := by
  unfold getRec
  cases hg : st.recs.get? i with
  | none => exact absurd (List.get?_eq_none.mp hg) (by omega)
  | some r => exact ⟨r, rfl⟩

theorem childrenOf_setChildren_self {st : St} {i : Nat} {m : NMap}
    (h : i < st.recs.length) : childrenOf (setChildren st i m) i = m := by
  obtain ⟨r, hr⟩ := getRec_lt_length h
  unfold setChildren
  rw [hr]
  simp [childrenOf, getRec_setRec_self h]

theorem childrenOf_setChildren_ne {st : St} {i j : Nat} {m : NMap} (h : i ≠ j) :
    childrenOf (setChildren st i m) j = childrenOf st j := by
  simp [childrenOf, getRec_setChildren_ne h]

theorem childrenOf_setSelfRef (st : St) (i : Nat) (p : Option Nat) (j : Nat) :
    childrenOf (setSelfRef st i p) j = childrenOf st j := by
  unfold setSelfRef
  cases hg : getRec st i with
  | none => rfl
  | some r =>
      by_cases hij : i = j
      · subst hij
        have hlen : i < st.recs.length := by
          unfold getRec at hg
          exact List.get?_eq_some.mp hg |>.choose
      -- length bound from a successful lookup
        simp [childrenOf, getRec_setRec_self hlen, hg]
      · simp [childrenOf, getRec_setRec_ne hij]

theorem childrenOf_setParent (st : St) (i : Nat) (p : Option Nat) (j : Nat) :
    childrenOf (setParent st i p) j = childrenOf st j := by
  unfold setParent
  cases hg : getRec st i with
  | none => rfl
  | some r =>
      by_cases hij : i = j
      · subst hij
        have hlen : i < st.recs.length := by
          unfold getRec at hg
          exact List.get?_eq_some.mp hg |>.choose
        simp [childrenOf, getRec_setRec_self hlen, hg]
      · simp [childrenOf, getRec_setRec_ne hij]

theorem createSubNode_nid {st st' : St} {name : String} {fl d nid : Nat}
    (hc : createSubNode st name fl d = some (nid, st')) :
    nid = st.recs.length ∧
    st'.recs = st.recs ++
      [{ flags := fl % 256, parent := none, selfRef := none,
         name := name, data := d, nodes := [] }] := by
  unfold createSubNode at hc
  cases hb : st.budget with
  | zero => rw [hb] at hc; exact absurd hc (by simp)
  | succ b =>
      rw [hb] at hc
      simp only [Option.some.injEq, Prod.mk.injEq] at hc
      exact ⟨hc.1.symm, by rw [← hc.2]⟩

theorem createSubNode_length {st st' : St} {name : String} {fl d nid : Nat}
    (hc : createSubNode st name fl d = some (nid, st')) :
    st'.recs.length = st.recs.length + 1 := by
  obtain ⟨_, h2⟩ := createSubNode_nid hc
  simp [h2]

theorem createSubNode_getRec_lt {st st' : St} {name : String} {fl d nid j : Nat}
    (hc : createSubNode st name fl d = some (nid, st'))
    (hj : j < st.recs.length) : getRec st' j = getRec st j := by
  obtain ⟨_, h2⟩ := createSubNode_nid hc
  simp only [getRec, h2, List.get?_eq_getElem?]
  rw [List.getElem?_append, if_pos hj]

theorem createSubNode_getRec_self {st st' : St} {name : String} {fl d nid : Nat}
    (hc : createSubNode st name fl d = some (nid, st')) :
    getRec st' nid = some { flags := fl % 256, parent := none, selfRef := none,
                            name := name, data := d, nodes := [] } := by
  obtain ⟨h1, h2⟩ := createSubNode_nid hc
  rw [getRec, h2, h1, List.get?_concat_length]

theorem childrenOf_createSubNode_lt {st st' : St} {name : String} {fl d nid j : Nat}
    (hc : createSubNode st name fl d = some (nid, st'))
    (hj : j < st.recs.length) : childrenOf st' j = childrenOf st j := by
  simp [childrenOf, createSubNode_getRec_lt hc hj]

theorem childrenOf_createSubNode_self {st st' : St} {name : String} {fl d nid : Nat}
    (hc : createSubNode st name fl d = some (nid, st')) :
    childrenOf st' nid = [] := by
  simp [childrenOf, createSubNode_getRec_self hc]

theorem childrenOf_out {st : St} {i : Nat} (h : ¬ i < st.recs.length) :
    childrenOf st i = [] := by
  unfold childrenOf getRec
  rw [List.get?_eq_none.mpr (by omega)]
  rfl

/-! Lemmas about the case-insensitive map operations, continued. -/

theorem mfind_val_mem {m : NMap} {k : String} {v : Nat}
    (h : mfind m k = some v) : ∃ k0, (k0, v) ∈ m := by
  induction m with
  | nil => simp [mfind] at h
  | cons kv rest ih =>
      obtain ⟨k0, w⟩ := kv
      simp only [mfind] at h
      by_cases hk : ciKeyEq k0 k
      · rw [if_pos hk] at h
        exact ⟨k0, by simp [← Option.some_inj.mp h]⟩
      · rw [if_neg hk] at h
        obtain ⟨k1, hmem⟩ := ih h
        exact ⟨k1, List.mem_cons_of_mem _ hmem⟩

theorem mfind_minsert {m : NMap} {c : String} {v : Nat} (k : String)
    (hnone : mfind m c = none) :
    mfind (minsert m c v).1 k = if ciKeyEq c k then some v else mfind m k := by
  induction m with
  | nil => simp [minsert, mfind]
  | cons kv rest ih =>
      obtain ⟨k0, w⟩ := kv
      simp only [mfind] at hnone
      by_cases h0 : ciKeyEq k0 c
      · rw [if_pos h0] at hnone; exact absurd hnone (by simp)
      · rw [if_neg h0] at hnone
        simp only [minsert, if_neg h0]
        by_cases hlt : ciLt c k0
        · rw [if_pos hlt]
          simp only [mfind]
        · rw [if_neg hlt]
          simp only [mfind]
          by_cases h0k : ciKeyEq k0 k
          · have hck : ¬ ciKeyEq c k := by
              intro hck
              simp only [ciKeyEq, beq_iff_eq] at h0 h0k hck
              exact h0 (h0k.trans hck.symm)
            rw [if_pos h0k, if_neg hck, if_pos h0k]
          · rw [if_neg h0k, if_neg h0k, ih hnone]

theorem mfind_massign (m : NMap) (c : String) (v : Nat) (k : String) :
    mfind (massign m c v) k = if ciKeyEq c k then some v else mfind m k := by
  induction m with
  | nil => simp [massign, mfind]
  | cons kv rest ih =>
      obtain ⟨k0, w⟩ := kv
      simp only [massign]
      by_cases h0 : ciKeyEq k0 c
      · rw [if_pos h0]
        simp only [mfind]
        by_cases hck : ciKeyEq c k
        · have h0k : ciKeyEq k0 k := by
            simp only [ciKeyEq, beq_iff_eq] at h0 hck ⊢
            exact h0.trans hck
          rw [if_pos hck, if_pos h0k]
        · have h0k : ¬ ciKeyEq k0 k := by
            intro h0k
            simp only [ciKeyEq, beq_iff_eq] at h0 h0k hck
            exact hck (h0.symm.trans h0k)
          rw [if_neg hck, if_neg h0k, if_neg h0k]
      · rw [if_neg h0]
        by_cases hlt : ciLt c k0
        · rw [if_pos hlt]
          simp only [mfind]
        · rw [if_neg hlt]
          simp only [mfind]
          by_cases h0k : ciKeyEq k0 k
          · have hck : ¬ ciKeyEq c k := by
              intro hck
              simp only [ciKeyEq, beq_iff_eq] at h0 h0k hck
              exact h0 (h0k.trans hck.symm)
            rw [if_pos h0k, if_neg hck, if_pos h0k]
          · rw [if_neg h0k, if_neg h0k, ih]

theorem minsert_mem {m : NMap} {c : String} {v : Nat} {kv : String × Nat}
    (h : kv ∈ (minsert m c v).1) : kv ∈ m ∨ kv = (c, v) := by
  induction m with
  | nil =>
      simp only [minsert, List.mem_singleton] at h
      right; exact h
  | cons kv0 rest ih =>
      obtain ⟨k0, w⟩ := kv0
      simp only [minsert] at h
      by_cases h0 : ciKeyEq k0 c
      · rw [if_pos h0] at h
        left; exact h
      · rw [if_neg h0] at h
        by_cases hlt : ciLt c k0
        · rw [if_pos hlt] at h
          rcases List.mem_cons.mp h with h2 | h2
          · right; exact h2
          · left; exact h2
        · rw [if_neg hlt] at h
          rcases List.mem_cons.mp h with h2 | h2
          · left; rw [h2]; exact List.mem_cons_self _ _
          · rcases ih h2 with h3 | h3
            · left; exact List.mem_cons_of_mem _ h3
            · right; exact h3

theorem mem_of_mem_set {α : Type} {l : List α} {i : Nat} {b x : α}
    (h : x ∈ l.set i b) : x ∈ l ∨ x = b := by
  induction l generalizing i with
  | nil => simp at h
  | cons a tl ih =>
      cases i with
      | zero =>
          simp only [List.set] at h
          rcases List.mem_cons.mp h with h2 | h2
          · right; exact h2
          · left; exact List.mem_cons_of_mem _ h2
      | succ j =>
          simp only [List.set] at h
          rcases List.mem_cons.mp h with h2 | h2
          · left; rw [h2]; exact List.mem_cons_self _ _
          · rcases ih h2 with h3 | h3
            · left; exact List.mem_cons_of_mem _ h3
            · right; exact h3

theorem getRec_mem {st : St} {i : Nat} {r : NodeRec}
    (h : getRec st i = some r) : r ∈ st.recs :=
  List.get?_mem h

theorem childrenOf_mem {st : St} {i : Nat} {kv : String × Nat}
    (h : kv ∈ childrenOf st i) : ∃ r, getRec st i = some r ∧ kv ∈ r.nodes := by
  unfold childrenOf at h
  cases hg : getRec st i with
  | none => rw [hg] at h; simp at h
  | some r =>
      rw [hg] at h
      exact ⟨r, rfl, h⟩

/-! Closedness of the store and preservation by the mutators. -/

theorem closedSt_mem {st : St} (h : closedSt st = true) {r : NodeRec}
    (hr : r ∈ st.recs) {kv : String × Nat} (hkv : kv ∈ r.nodes) :
    kv.2 < st.recs.length := by
  simp only [closedSt, List.all_eq_true, decide_eq_true_eq] at h
  exact h r hr kv hkv

theorem closed_mfind_lt {st : St} (h : closedSt st = true) {i : Nat}
    {k : String} {v : Nat} (hv : mfind (childrenOf st i) k = some v) :
    v < st.recs.length := by
  unfold childrenOf at hv
  cases hg : getRec st i with
  | none => rw [hg] at hv; simp [mfind] at hv
  | some r =>
      rw [hg] at hv
      obtain ⟨k0, hmem⟩ := mfind_val_mem hv
      exact closedSt_mem h (List.get?_mem hg) hmem

theorem closedSt_setChildren {st : St} {i : Nat} {m : NMap}
    (h : closedSt st = true) (hm : ∀ kv ∈ m, kv.2 < st.recs.length) :
    closedSt (setChildren st i m) = true := by
  unfold setChildren
  cases hg : getRec st i with
  | none => exact h
  | some r =>
      simp only [closedSt, List.all_eq_true, decide_eq_true_eq, setRec,
        List.length_set]
      intro x hx kv hkv
      rcases mem_of_mem_set hx with h2 | h2
      · exact closedSt_mem h h2 hkv
      · rw [h2] at hkv
        exact hm kv hkv

theorem closedSt_setSelfRef {st : St} {i : Nat} {p : Option Nat}
    (h : closedSt st = true) : closedSt (setSelfRef st i p) = true := by
  unfold setSelfRef
  cases hg : getRec st i with
  | none => exact h
  | some r =>
      simp only [closedSt, List.all_eq_true, decide_eq_true_eq, setRec,
        List.length_set]
      intro x hx kv hkv
      rcases mem_of_mem_set hx with h2 | h2
      · exact closedSt_mem h h2 hkv
      · rw [h2] at hkv
        exact closedSt_mem h (List.get?_mem hg) hkv

theorem closedSt_setParent {st : St} {i : Nat} {p : Option Nat}
    (h : closedSt st = true) : closedSt (setParent st i p) = true := by
  unfold setParent
  cases hg : getRec st i with
  | none => exact h
  | some r =>
      simp only [closedSt, List.all_eq_true, decide_eq_true_eq, setRec,
        List.length_set]
      intro x hx kv hkv
      rcases mem_of_mem_set hx with h2 | h2
      · exact closedSt_mem h h2 hkv
      · rw [h2] at hkv
        exact closedSt_mem h (List.get?_mem hg) hkv

theorem closedSt_createSubNode {st st' : St} {name : String} {fl d nid : Nat}
    (h : closedSt st = true)
    (hc : createSubNode st name fl d = some (nid, st')) :
    closedSt st' = true := by
  obtain ⟨h1, h2⟩ := createSubNode_nid hc
  simp only [closedSt, h2, List.all_append, List.all_eq_true,
    decide_eq_true_eq, Bool.and_eq_true, List.length_append,
    List.length_singleton]
  constructor
  · intro r hr kv hkv
    have := closedSt_mem h hr hkv
    omega
  · intro r hr kv hkv
    simp only [List.mem_singleton] at hr
    rw [hr] at hkv
    simp at hkv

theorem closedSt_attachDummy {st st1 : St} {base : Nat} {c : String} {nid : Nat}
    (h : closedSt st = true)
    (hc : createSubNode st c (FLAG_DIRECTORY ||| FLAG_DUMMY) 0 = some (nid, st1)) :
    closedSt (attachDummy st1 base c nid) = true := by
  have h1 : closedSt st1 = true := closedSt_createSubNode h hc
  obtain ⟨hnid, _⟩ := createSubNode_nid hc
  have hlen : st1.recs.length = st.recs.length + 1 := createSubNode_length hc
  unfold attachDummy
  refine closedSt_setParent (closedSt_setSelfRef (closedSt_setChildren h1 ?_))
  intro kv hkv
  rcases minsert_mem hkv with h2 | h2
  · obtain ⟨r, hg, hmem⟩ := childrenOf_mem h2
    exact closedSt_mem h1 (getRec_mem hg) hmem
  · rw [h2]
    omega

theorem attachFinal_fst (st : St) (base : Nat) (c : String) (nid : Nat)
    (ow : Bool) : (attachFinal st base c nid ow).1 = .ok (some nid) ∨
      (attachFinal st base c nid ow).1 = .ok none := by
  unfold attachFinal
  cases ow with
  | true => left; simp
  | false =>
      simp only [Bool.false_eq_true, if_false]
      cases hr : (minsert (childrenOf (setParent (setSelfRef st nid (some nid)) nid
          (selfOf (setSelfRef st nid (some nid)) base)) base) c nid).2 with
      | true => left; simp [hr]
      | false => right; simp [hr]

theorem findNodeAux_of_children_nil {st : St} {i : Nat}
    (h : childrenOf st i = []) : ∀ p, findNodeAux st i p = none := by
  intro p
  cases p with
  | nil => rfl
  | cons c rest => simp [findNodeAux, h, mfind]

theorem findNodeAux_cons (st : St) (i : Nat) (c : String) (rest : List String) :
    findNodeAux st i (c :: rest) =
      match mfind (childrenOf st i) c, rest with
      | some sub, [] => some sub
      | some sub, _ :: _ => findNodeAux st sub rest
      | none, _ => none := rfl

theorem findNodeAux_some_cons {st : St} {i : Nat} {c c2 : String}
    {rest : List String} {sub : Nat}
    (h : mfind (childrenOf st i) c = some sub) :
    findNodeAux st i (c :: c2 :: rest) = findNodeAux st sub (c2 :: rest) := by
  rw [findNodeAux_cons, h]

theorem findNodeAux_none {st : St} {i : Nat} {c : String}
    (h : mfind (childrenOf st i) c = none) (rest : List String) :
    findNodeAux st i (c :: rest) = none := by
  rw [findNodeAux_cons, h]

theorem findNodeAux_some_single {st : St} {i : Nat} {c : String} {sub : Nat}
    (h : mfind (childrenOf st i) c = some sub) :
    findNodeAux st i [c] = some sub := by
  rw [findNodeAux_cons, h]

theorem addNode_fail_pres (comps : List String) :
    ∀ (st : St) (root base d : Nat) (ow : Bool) (fl : Nat) (st' : St),
    closedSt st = true → base < st.recs.length →
    addNode st root base comps d ow fl = (.error (), st') →
    (∀ i k v, mfind (childrenOf st i) k = some v →
        mfind (childrenOf st' i) k = some v) ∧
    findNodeAux st' base comps = findNodeAux st base comps := by
  induction comps with
  | nil =>
      intro st root base d ow fl st' _ _ hadd
      simp only [addNode, Prod.mk.injEq] at hadd
      exact absurd hadd.1 (by simp)
  | cons c rest ih =>
      intro st root base d ow fl st' hclosed hbase hadd
      cases rest with
      | nil =>
          simp only [addNode] at hadd
          cases hm : mfind (childrenOf st root) c with
          | some nid =>
              rw [hm] at hadd
              have hadd2 : attachFinal st base c nid ow = (.error (), st') := hadd
              rcases attachFinal_fst st base c nid ow with h2 | h2 <;>
                · rw [hadd2] at h2; simp at h2
          | none =>
              rw [hm] at hadd
              cases hcr : createSubNode st c fl d with
              | none =>
                  rw [hcr] at hadd
                  have hadd2 : ((.error (), st) :
                      Except Unit (Option Nat) × St) = (.error (), st') := hadd
                  simp only [Prod.mk.injEq] at hadd2
                  rw [← hadd2.2]
                  exact ⟨fun i k v hv => hv, rfl⟩
              | some p =>
                  obtain ⟨nid, st1⟩ := p
                  rw [hcr] at hadd
                  have hadd2 : attachFinal st1 base c nid ow = (.error (), st') := hadd
                  rcases attachFinal_fst st1 base c nid ow with h2 | h2 <;>
                    · rw [hadd2] at h2; simp at h2
      | cons c2 rest2 =>
          simp only [addNode] at hadd
          cases hm : mfind (childrenOf st base) c with
          | some sub =>
              rw [hm] at hadd
              have hadd2 : addNode st root sub (c2 :: rest2) d ow fl =
                  (.error (), st') := hadd
              have hsub : sub < st.recs.length := closed_mfind_lt hclosed hm
              obtain ⟨hpres, hfind⟩ :=
                ih st root sub d ow fl st' hclosed hsub hadd2
              refine ⟨hpres, ?_⟩
              have hm' : mfind (childrenOf st' base) c = some sub := hpres _ _ _ hm
              rw [findNodeAux_some_cons hm', findNodeAux_some_cons hm]
              exact hfind
          | none =>
              rw [hm] at hadd
              cases hcr : createSubNode st c (FLAG_DIRECTORY ||| FLAG_DUMMY) 0 with
              | none =>
                  rw [hcr] at hadd
                  have hadd2 : ((.error (), st) :
                      Except Unit (Option Nat) × St) = (.error (), st') := hadd
                  simp only [Prod.mk.injEq] at hadd2
                  rw [← hadd2.2]
                  exact ⟨fun i k v hv => hv, rfl⟩
              | some p =>
                  obtain ⟨nid, st1⟩ := p
                  rw [hcr] at hadd
                  have hadd2 : addNode (attachDummy st1 base c nid) root nid
                      (c2 :: rest2) d ow fl = (.error (), st') := hadd
                  -- facts about the freshly attached dummy
                  obtain ⟨hnid, _⟩ := createSubNode_nid hcr
                  have hlen1 : st1.recs.length = st.recs.length + 1 :=
                    createSubNode_length hcr
                  have hcl2 : closedSt (attachDummy st1 base c nid) = true :=
                    closedSt_attachDummy hclosed hcr
                  have hnid2 : nid < (attachDummy st1 base c nid).recs.length := by
                    unfold attachDummy
                    rw [length_setParent, length_setSelfRef, length_setChildren]
                    omega
                  obtain ⟨hpres, hfind⟩ :=
                    ih (attachDummy st1 base c nid) root nid d ow fl st' hcl2 hnid2 hadd2
                  -- the children of base after attaching the dummy
                  have hch1 : childrenOf st1 base = childrenOf st base :=
                    childrenOf_createSubNode_lt hcr hbase
                  have hchA : childrenOf (attachDummy st1 base c nid) base =
                      (minsert (childrenOf st base) c nid).1 := by
                    unfold attachDummy
                    rw [childrenOf_setParent, childrenOf_setSelfRef,
                      childrenOf_setChildren_self (by rw [hlen1]; omega), hch1]
                  have hchN : childrenOf (attachDummy st1 base c nid) nid = [] := by
                    unfold attachDummy
                    rw [childrenOf_setParent, childrenOf_setSelfRef,
                      childrenOf_setChildren_ne (by omega),
                      childrenOf_createSubNode_self hcr]
                  have hpres0 : ∀ i k v, mfind (childrenOf st i) k = some v →
                      mfind (childrenOf (attachDummy st1 base c nid) i) k = some v := by
                    intro i k v hv
                    by_cases hilt : i < st.recs.length
                    · by_cases hib : i = base
                      · subst hib
                        rw [hchA, mfind_minsert k hm]
                        have hck : ¬ ciKeyEq c k := by
                          intro hck
                          simp only [ciKeyEq, beq_iff_eq] at hck
                          rw [mfind_ci _ _ _ hck.symm, hm] at hv
                          exact absurd hv (by simp)
                        rw [if_neg hck]
                        exact hv
                      · have hchi : childrenOf (attachDummy st1 base c nid) i =
                            childrenOf st i := by
                          unfold attachDummy
                          rw [childrenOf_setParent, childrenOf_setSelfRef,
                            childrenOf_setChildren_ne (fun he => hib he.symm)]
                          exact childrenOf_createSubNode_lt hcr hilt
                        rw [hchi]
                        exact hv
                    · rw [childrenOf_out hilt] at hv
                      simp [mfind] at hv
                  refine ⟨fun i k v hv => hpres _ _ _ (hpres0 _ _ _ hv), ?_⟩
                  have hmA : mfind (childrenOf (attachDummy st1 base c nid) base) c =
                      some nid := by
                    rw [hchA, mfind_minsert c hm, if_pos (by simp [ciKeyEq])]
                  have hm' : mfind (childrenOf st' base) c = some nid :=
                    hpres _ _ _ hmA
                  rw [findNodeAux_some_cons hm', findNodeAux_none hm, hfind]
                  exact findNodeAux_of_children_nil hchN _

/-- C3 amended: an insertion that fails with an allocation error may leave
intermediate dummy directories attached (a partially updated tree IS
observable), but it neither removes nor replaces any existing entry, and
the lookup of the inserted path itself is unchanged: the final node with
its payload becomes observable only when the insertion succeeds.  (After
the failure the container migrates to a doubled arena and retries the whole
insertion, which completes it.) -/
theorem c3_amended (st : St) (root : Nat) (p : List String) (d fl : Nat)
    (ow : Bool) (st' : St) (hclosed : closedSt st = true)
    (hroot : root < st.recs.length)
    (hfail : addFile st root p d fl ow = (.error (), st') ∨
      addDirectory st root p d fl ow = (.error (), st')) :
    (∀ i k v, mfind (childrenOf st i) k = some v →
        mfind (childrenOf st' i) k = some v) ∧
    findNodeAux st' root p = findNodeAux st root p := by
  rcases hfail with h | h
  · exact addNode_fail_pres p st root root d ow fl st' hclosed hroot h
  · exact addNode_fail_pres p st root root d ow (fl ||| FLAG_DIRECTORY) st'
      hclosed hroot h

/-- C3 witness: the amended theorem applied to the failing insertion of
`a/b` into a fresh tree whose arena has room for a single node. -/
theorem c3_amended_witness :
    findNodeAux c3failSt rootId ["a", "b"] =
      findNodeAux (initialSt 1) rootId ["a", "b"] :=
  (c3_amended (initialSt 1) rootId ["a", "b"] 7 0 true c3failSt
    (by decide) (by decide) (Or.inl rfl)).2

/-! Lemmas about the flag bits. -/

theorem and_pow_mod256 (n i : Nat) (h : i < 8) :
    n % 256 &&& 2 ^ i = n &&& 2 ^ i := by
  rw [Nat.and_two_pow, Nat.and_two_pow,
    show (256 : Nat) = 2 ^ 8 by norm_num, Nat.testBit_mod_two_pow]
  simp [h]

theorem and_dummy_mod256 (n : Nat) : n % 256 &&& FLAG_DUMMY = n &&& FLAG_DUMMY := by
  have h := and_pow_mod256 n 1 (by norm_num)
  simpa [FLAG_DUMMY] using h

theorem and_dir_mod256 (n : Nat) : n % 256 &&& FLAG_DIRECTORY = n &&& FLAG_DIRECTORY := by
  have h := and_pow_mod256 n 0 (by norm_num)
  simpa [FLAG_DIRECTORY] using h

theorem or_one_and_one (n : Nat) : (n ||| FLAG_DIRECTORY) &&& FLAG_DIRECTORY ≠ 0 := by
  have hbit : (n ||| (1 : Nat)).testBit 0 = true := by
    rw [Nat.testBit_or]
    simp
  have h := Nat.and_two_pow (n ||| 1) 0
  rw [hbit] at h
  simp only [pow_zero, mul_one, Bool.toNat_true] at h
  simp only [FLAG_DIRECTORY, h]
  decide

/-! Preservation of the DUMMY-implies-DIRECTORY invariant. -/

theorem dummyDirInv_mem {st : St} (h : dummyDirInv st = true) {r : NodeRec}
    (hr : r ∈ st.recs) :
    (r.flags &&& FLAG_DUMMY == 0 || r.flags &&& FLAG_DIRECTORY != 0) = true := by
  simp only [dummyDirInv, List.all_eq_true] at h
  exact h r hr

theorem dummyDirInv_setRec {st : St} {i : Nat} {r r0 : NodeRec}
    (h : dummyDirInv st = true) (h0 : getRec st i = some r0)
    (hfl : r.flags = r0.flags) : dummyDirInv (setRec st i r) = true := by
  simp only [dummyDirInv, List.all_eq_true, setRec]
  intro x hx
  rcases mem_of_mem_set hx with hmem | hx2
  · exact dummyDirInv_mem h hmem
  · rw [hx2, hfl]
    exact dummyDirInv_mem h (List.get?_mem h0)

theorem dummyDirInv_setChildren {st : St} {i : Nat} {m : NMap}
    (h : dummyDirInv st = true) : dummyDirInv (setChildren st i m) = true := by
  unfold setChildren
  cases hg : getRec st i with
  | none => exact h
  | some r => exact dummyDirInv_setRec h hg rfl

theorem dummyDirInv_setSelfRef {st : St} {i : Nat} {p : Option Nat}
    (h : dummyDirInv st = true) : dummyDirInv (setSelfRef st i p) = true := by
  unfold setSelfRef
  cases hg : getRec st i with
  | none => exact h
  | some r => exact dummyDirInv_setRec h hg rfl

theorem dummyDirInv_setParent {st : St} {i : Nat} {p : Option Nat}
    (h : dummyDirInv st = true) : dummyDirInv (setParent st i p) = true := by
  unfold setParent
  cases hg : getRec st i with
  | none => exact h
  | some r => exact dummyDirInv_setRec h hg rfl

theorem dummyDirInv_createSubNode {st st' : St} {name : String} {fl d nid : Nat}
    (h : dummyDirInv st = true)
    (hfl : fl % 256 &&& FLAG_DUMMY = 0 ∨ fl % 256 &&& FLAG_DIRECTORY ≠ 0)
    (hc : createSubNode st name fl d = some (nid, st')) :
    dummyDirInv st' = true := by
  unfold createSubNode at hc
  cases hb : st.budget with
  | zero => rw [hb] at hc; exact absurd hc (by simp)
  | succ b =>
      rw [hb] at hc
      simp only [Option.some.injEq, Prod.mk.injEq] at hc
      obtain ⟨hnid, hst⟩ := hc
      rw [← hst]
      simp only [dummyDirInv, List.all_append, List.all_eq_true, Bool.and_eq_true]
      constructor
      · intro x hx
        exact dummyDirInv_mem h hx
      · intro x hx
        simp only [List.mem_singleton] at hx
        rw [hx]
        simp only [Bool.or_eq_true, beq_iff_eq, bne_iff_ne, ne_eq]
        rcases hfl with h1 | h1
        · left; exact h1
        · right; exact h1

theorem dummyDirInv_attachFinal {st : St} {base : Nat} {c : String} {nid : Nat}
    {ow : Bool} (h : dummyDirInv st = true) :
    dummyDirInv (attachFinal st base c nid ow).2 = true := by
  unfold attachFinal
  have h2 : dummyDirInv (setParent (setSelfRef st nid (some nid)) nid
      (selfOf (setSelfRef st nid (some nid)) base)) = true :=
    dummyDirInv_setParent (dummyDirInv_setSelfRef h)
  cases ow with
  | true => simpa using dummyDirInv_setChildren h2
  | false =>
      simp only [Bool.false_eq_true, if_false]
      cases hr : (minsert (childrenOf (setParent (setSelfRef st nid (some nid)) nid
          (selfOf (setSelfRef st nid (some nid)) base)) base) c nid).2 with
      | true => simpa [hr] using dummyDirInv_setChildren h2
      | false => simpa [hr] using h2

theorem dummyDirInv_attachDummy {st : St} {base : Nat} {c : String} {nid : Nat}
    (h : dummyDirInv st = true) : dummyDirInv (attachDummy st base c nid) = true := by
  unfold attachDummy
  exact dummyDirInv_setParent (dummyDirInv_setSelfRef (dummyDirInv_setChildren h))

theorem dummyDirInv_addNode (comps : List String) :
    ∀ (st : St) (root base d : Nat) (ow : Bool) (fl : Nat),
    dummyDirInv st = true →
    (fl % 256 &&& FLAG_DUMMY = 0 ∨ fl % 256 &&& FLAG_DIRECTORY ≠ 0) →
    dummyDirInv (addNode st root base comps d ow fl).2 = true := by
  induction comps with
  | nil => intro st root base d ow fl h _; exact h
  | cons c rest ih =>
      intro st root base d ow fl h hfl
      cases rest with
      | nil =>
          simp only [addNode]
          cases hm : mfind (childrenOf st root) c with
          | some nid => exact dummyDirInv_attachFinal h
          | none =>
              cases hc : createSubNode st c fl d with
              | none => exact h
              | some p =>
                  obtain ⟨nid, st1⟩ := p
                  exact dummyDirInv_attachFinal (dummyDirInv_createSubNode h hfl hc)
      | cons c2 rest2 =>
          simp only [addNode]
          cases hm : mfind (childrenOf st base) c with
          | some sub => exact ih st root sub d ow fl h hfl
          | none =>
              cases hc : createSubNode st c (FLAG_DIRECTORY ||| FLAG_DUMMY) 0 with
              | none => exact h
              | some p =>
                  obtain ⟨nid, st1⟩ := p
                  have hdum : dummyDirInv st1 = true := by
                    refine dummyDirInv_createSubNode h ?_ hc
                    right
                    rw [and_dir_mod256]
                    simp [FLAG_DIRECTORY, FLAG_DUMMY]
                  exact ih _ root nid d ow fl (dummyDirInv_attachDummy hdum) hfl

theorem dummyDirInv_applyOp {st : St} {op : Op} (h : dummyDirInv st = true)
    (hop : opFlagsOk op = true) : dummyDirInv (applyOp st op) = true := by
  cases op with
  | file p d fl ow =>
      simp only [opFlagsOk, beq_iff_eq] at hop
      refine dummyDirInv_addNode p st rootId rootId d ow fl h ?_
      left
      rw [and_dummy_mod256]
      exact hop
  | dir p d fl ow =>
      refine dummyDirInv_addNode p st rootId rootId d ow (fl ||| FLAG_DIRECTORY) h ?_
      right
      rw [and_dir_mod256]
      exact or_one_and_one fl
  | clearAll => exact dummyDirInv_setChildren h
  | eraseAt p k =>
      simp only [applyOp]
      cases hf : findNodeAux st rootId p with
      | none => exact h
      | some i => exact dummyDirInv_setChildren h

/-- C6 amended: after any sequence of container operations whose addFile
calls do not themselves pass FLAG_DUMMY in their flags argument, every node
with the DUMMY flag also has the DIRECTORY flag. -/
theorem c6_amended (ops : List Op) (budget : Nat)
    (h : ∀ op ∈ ops, opFlagsOk op = true) :
    dummyDirInv (applyOps (initialSt budget) ops) = true := by
  have hgen : ∀ (l : List Op) (st : St), dummyDirInv st = true →
      (∀ op ∈ l, opFlagsOk op = true) → dummyDirInv (l.foldl applyOp st) = true := by
    intro l
    induction l with
    | nil => intro st hst _; exact hst
    | cons op rest ih =>
        intro st hst hops
        simp only [List.foldl_cons]
        exact ih _ (dummyDirInv_applyOp hst (hops op (List.mem_cons_self _ _)))
          (fun x hx => hops x (List.mem_cons_of_mem _ hx))
  exact hgen ops (initialSt budget)
    (by simp [dummyDirInv, initialSt, FLAG_DUMMY, FLAG_DIRECTORY]) h

/-- C6 witness: the amended theorem applied to a concrete two-operation
sequence with well-behaved flags. -/
theorem c6_amended_witness :
    dummyDirInv (applyOps (initialSt 5)
      [Op.file ["x", "y"] 7 0 true, Op.dir ["z"] 1 16 true]) = true :=
  c6_amended [Op.file ["x", "y"] 7 0 true, Op.dir ["z"] 1 16 true] 5 (by decide)

/-- C1.  The spec states that after `addFile(p, d, overwrite = true)` the
lookup `findByPath(p)` yields a node whose payload is `d`, the existence
check for the final component being made against the children of the node
reached by descending the prefix of `p`.  The code checks the final
component against the children of the ROOT instead
(`this->get()->node(...)` in `TreeContainer::addNode`): after
`addFile("b", 5)`, the call `addFile("a/b", 7, overwrite = true)` reports
success but reuses the root child `b`, and `findByPath("a/b")` then
returns payload `5`, not `7`. -/
theorem c1_code_eval :
    (addFile (addFile (initialSt 10) rootId ["b"] 5 0 true).2
        rootId ["a", "b"] 7 0 true).1 = .ok (some 1) ∧
    (findNodeAux c1st rootId ["a", "b"]).bind (dataOf c1st) = some 5 ∧
    (5 : Nat) ≠ 7 := by
  refine ⟨rfl, rfl, by decide⟩

/-- C2.  `numNodesRecursive` is documented (and specified) to return the
number of nodes of the subtree, the node itself included; the code
initialises the accumulator with `numNodes() + 1` and then also adds every
child's recursive count, counting each non-root node twice.  On a tree with
exactly two nodes (the root and one leaf child) it returns `3`. -/
theorem c2_code_eval :
    numNodes c2st rootId = 1 ∧ childrenOf c2st 1 = [] ∧
    numNodesRecursive c2st rootId 10 = some 3 ∧ (3 : Nat) ≠ 2 := by
  refine ⟨rfl, rfl, rfl, by decide⟩

/-- C3 counterexample.  An insertion whose final allocation fails does
leave a partially updated tree: with room for exactly one more node,
`addFile("a/b", 7)` throws `bad_alloc`, yet afterwards the dummy directory
`a` is attached and observable. -/
theorem c3_counterexample :
    (addFile (initialSt 1) rootId ["a", "b"] 7 0 true).1 = .error () ∧
    c3failSt ≠ initialSt 1 ∧
    findNodeAux c3failSt rootId ["a"] = some 1 ∧
    hasFlag c3failSt 1 FLAG_DUMMY = true := by
  refine ⟨rfl, by decide, rfl, rfl⟩

/-- C4.  The path/findByPath round trip fails on the code.  After
`addFile("a/b", 3)`, `addFile("b", 5)` and `addFile("a/b", 7, overwrite =
false)`, the third call looks the final component up among the ROOT
children (the same slip as in C1), takes the node `b` inserted by the
second call, redirects its parent pointer to the dummy `a` and only then
notices that `a` already has a child `b` (returning null).  The node is
still reachable from the root as child `b` (index 3), its `path()` is
`a/b`, but `findByPath("a/b")` returns the different node with index 2. -/
theorem c4_code_eval :
    findNodeAux c4st rootId ["b"] = some 3 ∧
    pathOf c4st 3 10 = some ["a", "b"] ∧
    findNodeAux c4st rootId ["a", "b"] = some 2 ∧
    (2 : Nat) ≠ 3 ∧ dataOf c4st 3 = some 5 ∧ dataOf c4st 2 = some 3 := by
  refine ⟨rfl, rfl, rfl, by decide, rfl, rfl⟩

/-- C7.  After inserting `a/b/c1.txt`, `a/b/c2.txt` and `a/d/e.txt` into an
empty tree, `find("a/b/*.txt")` returns exactly the nodes of the two
`c*.txt` files, in the case-insensitively sorted child-map order. -/
theorem c7_glob :
    find c7st 20 rootId "a/b/*.txt" = [3, 4] ∧
    findNodeAux c7st rootId ["a", "b", "c1.txt"] = some 3 ∧
    findNodeAux c7st rootId ["a", "b", "c2.txt"] = some 4 ∧
    findNodeAux c7st rootId ["a", "d", "e.txt"] = some 6 ∧
    nameOf c7st 3 = "c1.txt" ∧ nameOf c7st 4 = "c2.txt" ∧
    ciLt (nameOf c7st 3) (nameOf c7st 4) = true := by
  refine ⟨rfl, rfl, rfl, rfl, rfl, rfl, rfl⟩

/-- C8.  Path lookup is ASCII-case-insensitive: findNode applied to two
paths with the same case-folded components gives the same result on every
tree, and concretely, after `addFile("Foo/Bar", 5)` on a fresh tree the
lookups `FOO/bar` and `Foo/Bar` resolve to the same node. -/
theorem c8_ci_lookup :
    (∀ (st : St) (i : Nat) (p q : List String),
        p.map ciKey = q.map ciKey → findNodeAux st i p = findNodeAux st i q) ∧
    findNodeAux c8st rootId ["FOO", "bar"] = findNodeAux c8st rootId ["Foo", "Bar"] ∧
    findNodeAux c8st rootId ["Foo", "Bar"] = some 2 := by
  refine ⟨?_, rfl, rfl⟩
  intro st i p
  induction p generalizing i with
  | nil =>
      intro q hq
      have hq2 : q = [] := by simpa using hq.symm
      rw [hq2]
  | cons c rest ih =>
      intro q hq
      cases q with
      | nil => simp at hq
      | cons c2 rest2 =>
          simp only [List.map_cons, List.cons.injEq] at hq
          obtain ⟨h1, h2⟩ := hq
          have hm : mfind (childrenOf st i) c = mfind (childrenOf st i) c2 :=
            mfind_ci _ _ _ h1
          cases hsub : mfind (childrenOf st i) c2 with
          | none => simp only [findNodeAux, hm, hsub]
          | some sub =>
              cases rest with
              | nil =>
                  have h3 : rest2 = [] := by simpa using h2.symm
                  subst h3
                  simp only [findNodeAux, hm, hsub]
              | cons d ds =>
                  cases rest2 with
                  | nil => simp at h2
                  | cons d2 ds2 =>
                      simp only [findNodeAux, hm, hsub]
                      exact ih _ _ h2

/-- C8 witness: the universal part applied to the singleton paths `A` and
`a` on a concrete store. -/
theorem c8_ci_lookup_witness :
    findNodeAux (initialSt 5) 0 ["A"] = findNodeAux (initialSt 5) 0 ["a"] :=
  c8_ci_lookup.1 (initialSt 5) 0 ["A"] ["a"] (by decide)

/-- C6 counterexample.  The claim quantifies over every addFile, but an
addFile whose flags argument contains FLAG_DUMMY creates a node with DUMMY
set and DIRECTORY clear. -/
theorem c6_counterexample :
    findNodeAux c6st rootId ["a"] = some 1 ∧
    hasFlag c6st 1 FLAG_DUMMY = true ∧
    hasFlag c6st 1 FLAG_DIRECTORY = false := by
  refine ⟨rfl, rfl, rfl⟩

/-- C9 counterexample.  The spec grammar requires the generation to be a
positive decimal integer with no leading zeros, and the claim says a name
violating the grammar makes the successor computation raise InvalidName;
but `svc_0` (generation not positive) matches the code regex `(.*_)(\d+)`,
so `followupName` happily returns `svc_1` instead of throwing, and the
constructor does not append `_1` either. -/
theorem c9_counterexample :
    specArenaNameGrammar "svc_0" = false ∧
    followupName "svc_0" = .ok "svc_1" ∧
    attachName "svc_0" = "svc_0" := by
  refine ⟨rfl, rfl, rfl⟩

/-- C9 amended: the code appends `_1` exactly when the name fails the regex
`(.*_)(\d+)` (no non-empty digit suffix directly preceded by an underscore,
or a line terminator in the `.*` part), raises InvalidName under the same
condition when the successor is computed, and otherwise increments the
numeric value of the digit suffix (as long as the incremented value stays
below the int overflow region). -/
theorem c9_amended :
    (∀ s, regexSplit s = none →
        attachName s = s ++ "_1" ∧ followupName s = .error .invalidName) ∧
    (∀ s g, regexSplit s = some g → attachName s = s) ∧
    (∀ s pre ds, regexSplit s = some (pre, ds) → digitsVal ds < 2147483647 →
        followupName s = .ok (pre ++ toString (digitsVal ds + 1))) := by
  refine ⟨?_, ?_, ?_⟩
  · intro s h
    constructor
    · simp only [attachName, h]
    · simp only [followupName, h]
  · intro s g h
    simp only [attachName, h]
  · intro s pre ds h hv
    simp only [followupName, h]
    rw [if_neg (by omega), if_neg (by omega)]

/-- C9 witness: the amended theorem applied to the concrete names `svc`
(no digit suffix) and `svc_41` (digit suffix with value 41). -/
theorem c9_amended_witness :
    (attachName "svc" = "svc" ++ "_1" ∧ followupName "svc" = .error .invalidName) ∧
    followupName "svc_41" = .ok ("svc_" ++ toString (41 + 1)) := by
  constructor
  · exact c9_amended.1 "svc" rfl
  · exact c9_amended.2.2 "svc_41" "svc_" "41" rfl (by decide)

/-- C10 counterexample.  After the only HookManager is destroyed,
`instance()` neither throws nor returns a live instance: the destructor
does not reset `s_Instance`, so the stale identifier `0` is returned while
the set of live instances is empty. -/
theorem c10_counterexample :
    hmInstance (hmDestruct (hmConstruct hmInit).2 0) = .ok 0 ∧
    (hmDestruct (hmConstruct hmInit).2 0).alive = [] := by
  refine ⟨rfl, rfl⟩

/-- C10 amended: constructing while `s_Instance` is set throws and leaves
the state unchanged (even when that instance has already been destroyed);
`instance()` throws exactly when no construction has ever succeeded, and
otherwise returns the identifier stored by the unique successful
construction, whether or not that instance is still alive. -/
theorem c10_amended :
    (∀ st : HMState, st.sInstance.isSome → hmConstruct st = (.error (), st)) ∧
    (∀ st : HMState, st.sInstance = none → hmInstance st = .error ()) ∧
    (∀ (st : HMState) (i : Nat), st.sInstance = some i → hmInstance st = .ok i) := by
  refine ⟨?_, ?_, ?_⟩
  · intro st h
    cases hs : st.sInstance with
    | none => rw [hs] at h; simp at h
    | some i => simp only [hmConstruct, hs]
  · intro st h
    simp only [hmInstance, h]
  · intro st i h
    simp only [hmInstance, h]

/-- C10 witness: a second construction attempt while the first instance is
alive fails and leaves the singleton state unchanged. -/
theorem c10_amended_witness :
    hmConstruct (hmConstruct hmInit).2 = (.error (), (hmConstruct hmInit).2) :=
  c10_amended.1 (hmConstruct hmInit).2 (by decide)

/-! Core-projection lemmas for the migration proof. -/

theorem getRec_lt_of_some {st : St} {i : Nat} {r : NodeRec}
    (h : getRec st i = some r) : i < st.recs.length := by
  unfold getRec at h
  by_cases hlt : i < st.recs.length
  · exact hlt
  · rw [List.get?_eq_none.mpr (by omega)] at h
    exact absurd h (by simp)

theorem coreOf_setSelfRef (st : St) (i : Nat) (p : Option Nat) (j : Nat) :
    coreOf (setSelfRef st i p) j = coreOf st j := by
  unfold setSelfRef
  cases hg : getRec st i with
  | none => rfl
  | some r =>
      by_cases hij : i = j
      · subst hij
        simp [coreOf, getRec_setRec_self (getRec_lt_of_some hg), hg]
      · simp [coreOf, getRec_setRec_ne hij]

theorem coreOf_setParent (st : St) (i : Nat) (p : Option Nat) (j : Nat) :
    coreOf (setParent st i p) j = coreOf st j := by
  unfold setParent
  cases hg : getRec st i with
  | none => rfl
  | some r =>
      by_cases hij : i = j
      · subst hij
        simp [coreOf, getRec_setRec_self (getRec_lt_of_some hg), hg]
      · simp [coreOf, getRec_setRec_ne hij]

theorem coreOf_setChildren_ne {st : St} {i j : Nat} {m : NMap} (h : i ≠ j) :
    coreOf (setChildren st i m) j = coreOf st j := by
  simp [coreOf, getRec_setChildren_ne h]

theorem coreOf_createSubNode_lt {st st' : St} {name : String} {fl d nid j : Nat}
    (hc : createSubNode st name fl d = some (nid, st'))
    (hj : j < st.recs.length) : coreOf st' j = coreOf st j := by
  simp [coreOf, createSubNode_getRec_lt hc hj]

theorem coreOf_copyFields_ne {st : St} {dest j : Nat} {r : NodeRec}
    (h : dest ≠ j) : coreOf (copyFields st dest r) j = coreOf st j := by
  unfold copyFields
  cases getRec st dest with
  | none => rfl
  | some d0 => simp [coreOf, getRec_setRec_ne h]

theorem children_of_core {st1 st2 : St} {j : Nat}
    (h : coreOf st1 j = coreOf st2 j) : childrenOf st1 j = childrenOf st2 j := by
  unfold coreOf at h
  unfold childrenOf
  cases h1 : getRec st1 j <;> cases h2 : getRec st2 j <;> rw [h1, h2] at h <;>
    simp at h ⊢
  exact h.2.2.2

theorem name_of_core {st1 st2 : St} {j : Nat}
    (h : coreOf st1 j = coreOf st2 j) : nameOf st1 j = nameOf st2 j := by
  unfold coreOf at h
  unfold nameOf
  cases h1 : getRec st1 j <;> cases h2 : getRec st2 j <;> rw [h1, h2] at h <;>
    simp at h ⊢
  exact h.2.2.1

theorem obsAt_of_core {st1 st2 : St} {j : Nat}
    (h : coreOf st1 j = coreOf st2 j) : obsAt st1 j = obsAt st2 j := by
  unfold coreOf at h
  unfold obsAt
  cases h1 : getRec st1 j <;> cases h2 : getRec st2 j <;> rw [h1, h2] at h <;>
    simp at h ⊢
  exact ⟨h.1, h.2.1⟩

theorem obsAt_setChildren (st : St) (i : Nat) (m : NMap) (j : Nat) :
    obsAt (setChildren st i m) j = obsAt st j := by
  unfold setChildren
  cases hg : getRec st i with
  | none => rfl
  | some r =>
      by_cases hij : i = j
      · subst hij
        simp [obsAt, getRec_setRec_self (getRec_lt_of_some hg), hg]
      · simp [obsAt, getRec_setRec_ne hij]

theorem nameOf_setChildren (st : St) (i : Nat) (m : NMap) (j : Nat) :
    nameOf (setChildren st i m) j = nameOf st j := by
  unfold setChildren
  cases hg : getRec st i with
  | none => rfl
  | some r =>
      by_cases hij : i = j
      · subst hij
        simp [nameOf, getRec_setRec_self (getRec_lt_of_some hg), hg]
      · simp [nameOf, getRec_setRec_ne hij]

theorem length_copyFields (st : St) (dest : Nat) (r : NodeRec) :
    (copyFields st dest r).recs.length = st.recs.length := by
  unfold copyFields
  cases getRec st dest <;> simp [length_setRec]

theorem copyFields_getRec {st : St} {dest : Nat} {r d0 : NodeRec}
    (hg : getRec st dest = some d0) :
    getRec (copyFields st dest r) dest =
      some { d0 with flags := r.flags, data := r.data, name := r.name } := by
  unfold copyFields
  rw [hg]
  exact getRec_setRec_self (getRec_lt_of_some hg)

theorem childrenOf_copyFields (st : St) (dest : Nat) (r : NodeRec) :
    childrenOf (copyFields st dest r) dest = childrenOf st dest := by
  unfold copyFields
  cases hg : getRec st dest with
  | none => rfl
  | some d0 =>
      simp [childrenOf, getRec_setRec_self (getRec_lt_of_some hg), hg]

/-! Equation and access lemmas for the fuel-indexed predicates. -/

theorem obsSub_cons (st : St) (i : Nat) (c : String) (rest : List String) :
    obsSub st i (c :: rest) =
      (mfind (childrenOf st i) c).bind (fun j => obsSub st j rest) := by
  cases rest with
  | nil =>
      cases hm : mfind (childrenOf st i) c with
      | none => simp [obsSub, findNodeAux_none hm, hm]
      | some sub => simp [obsSub, findNodeAux_some_single hm, hm, obsAt]
  | cons c2 rest2 =>
      cases hm : mfind (childrenOf st i) c with
      | none => simp [obsSub, findNodeAux_none hm, hm]
      | some sub => simp [obsSub, findNodeAux_some_cons hm, hm]

theorem subIdsOk_succ {st : St} {bound fuel i : Nat} :
    subIdsOk st bound (fuel + 1) i = true ↔
      i < bound ∧ ∀ kv ∈ childrenOf st i, subIdsOk st bound fuel kv.2 = true := by
  simp [subIdsOk, List.all_eq_true]

theorem subIdsOk_lt {st : St} {bound fuel i : Nat}
    (h : subIdsOk st bound fuel i = true) : i < bound := by
  cases fuel with
  | zero => simp [subIdsOk] at h
  | succ fuel => exact (subIdsOk_succ.mp h).1

theorem wfSub_succ {st : St} {fuel i : Nat} :
    wfSub st (fuel + 1) i = true ↔
      ∃ r, getRec st i = some r ∧ keysCiDistinct r.nodes = true ∧
        ∀ kv ∈ r.nodes, ciKeyEq kv.1 (nameOf st kv.2) = true ∧
          wfSub st fuel kv.2 = true := by
  rw [show wfSub st (fuel + 1) i =
      (match getRec st i with
       | none => false
       | some r => keysCiDistinct r.nodes &&
           r.nodes.all (fun kv => ciKeyEq kv.1 (nameOf st kv.2) &&
             wfSub st fuel kv.2)) from rfl]
  cases hg : getRec st i with
  | none => simp [hg]
  | some r => simp [hg, List.all_eq_true]

theorem subIdsOk_congr (fuel : Nat) :
    ∀ {st1 st2 : St} {bound i : Nat},
    subIdsOk st1 bound fuel i = true →
    (∀ j, j < bound → coreOf st2 j = coreOf st1 j) →
    subIdsOk st2 bound fuel i = true := by
  induction fuel with
  | zero => intro st1 st2 bound i h _; simp [subIdsOk] at h
  | succ fuel ih =>
      intro st1 st2 bound i h hag
      rw [subIdsOk_succ] at h ⊢
      obtain ⟨hib, hch⟩ := h
      refine ⟨hib, ?_⟩
      rw [children_of_core (hag i hib)]
      intro kv hkv
      exact ih (hch kv hkv) hag

theorem wfSub_congr (fuel : Nat) :
    ∀ {st1 st2 : St} {bound i : Nat},
    subIdsOk st1 bound fuel i = true →
    (∀ j, j < bound → coreOf st2 j = coreOf st1 j) →
    wfSub st1 fuel i = true → wfSub st2 fuel i = true := by
  induction fuel with
  | zero => intro st1 st2 bound i h _ _; simp [subIdsOk] at h
  | succ fuel ih =>
      intro st1 st2 bound i hs hag hw
      rw [wfSub_succ] at hw ⊢
      obtain ⟨r1, hg1, hdis, hch⟩ := hw
      have hib : i < bound := subIdsOk_lt hs
      have hcore := hag i hib
      have hg2 : ∃ r2, getRec st2 i = some r2 ∧ r2.nodes = r1.nodes := by
        unfold coreOf at hcore
        cases h2 : getRec st2 i <;> rw [h2, hg1] at hcore <;> simp at hcore
        · exact ⟨_, rfl, hcore.2.2.2⟩
      obtain ⟨r2, hg2, hnodes⟩ := hg2
      obtain ⟨hb, hsch⟩ := subIdsOk_succ.mp hs
      have hchEq : childrenOf st1 i = r1.nodes := by simp [childrenOf, hg1]
      refine ⟨r2, hg2, by rw [hnodes]; exact hdis, ?_⟩
      rw [hnodes]
      intro kv hkv
      obtain ⟨hname, hwf⟩ := hch kv hkv
      have hsk : subIdsOk st1 bound fuel kv.2 = true := by
        refine hsch kv ?_
        rw [hchEq]
        exact hkv
      have hkvlt : kv.2 < bound := subIdsOk_lt hsk
      constructor
      · rw [name_of_core (hag kv.2 hkvlt)]
        exact hname
      · exact ih hsk hag hwf

theorem obsSub_congr (fuel : Nat) :
    ∀ {st1 st2 : St} {bound i : Nat},
    subIdsOk st1 bound fuel i = true →
    (∀ j, j < bound → coreOf st2 j = coreOf st1 j) →
    ∀ p, obsSub st2 i p = obsSub st1 i p := by
  induction fuel with
  | zero => intro st1 st2 bound i h _ _; simp [subIdsOk] at h
  | succ fuel ih =>
      intro st1 st2 bound i hs hag p
      have hib : i < bound := subIdsOk_lt hs
      cases p with
      | nil => exact obsAt_of_core (hag i hib)
      | cons c rest =>
          rw [obsSub_cons, obsSub_cons, children_of_core (hag i hib)]
          cases hm : mfind (childrenOf st1 i) c with
          | none => rfl
          | some v =>
              simp only [Option.some_bind]
              obtain ⟨hb, hsch⟩ := subIdsOk_succ.mp hs
              obtain ⟨k0, hmem⟩ := mfind_val_mem hm
              exact ih (hsch (k0, v) hmem) hag rest

theorem keysCiDistinct_cons {kv : String × Nat} {rest : NMap} :
    keysCiDistinct (kv :: rest) = true ↔
      (∀ kv2 ∈ rest, ciKeyEq kv2.1 kv.1 = false) ∧ keysCiDistinct rest = true := by
  obtain ⟨k, v⟩ := kv
  simp [keysCiDistinct, List.all_eq_true]

theorem mfind_key_mem {m : NMap} {k : String} {v : Nat}
    (h : mfind m k = some v) :
    ∃ k0, (k0, v) ∈ m ∧ ciKeyEq k0 k = true := by
  induction m with
  | nil => simp [mfind] at h
  | cons kv rest ih =>
      obtain ⟨k0, w⟩ := kv
      simp only [mfind] at h
      by_cases hk : ciKeyEq k0 k
      · rw [if_pos hk] at h
        exact ⟨k0, by simp [← Option.some_inj.mp h], hk⟩
      · rw [if_neg hk] at h
        obtain ⟨k1, hmem, hk1⟩ := ih h
        exact ⟨k1, List.mem_cons_of_mem _ hmem, hk1⟩

theorem ciKeyEq_trans {a b c : String} (h1 : ciKeyEq a b = true)
    (h2 : ciKeyEq b c = true) : ciKeyEq a c = true := by
  simp only [ciKeyEq, beq_iff_eq] at h1 h2 ⊢
  exact h1.trans h2

theorem ciKeyEq_symm {a b : String} (h : ciKeyEq a b = true) :
    ciKeyEq b a = true := by
  simp only [ciKeyEq, beq_iff_eq] at h ⊢
  exact h.symm

/-- The copyStep fold over a child list, assuming the copyTree correctness
bundle at the current fuel (supplied by the fuel induction in
copyTree_correct). -/
theorem copyKids_correct (fuel bound dest : Nat)
    (ihF : ∀ (st : St) (d2 s2 : Nat) (stX : St),
      wfSub st fuel s2 = true →
      subIdsOk st bound fuel s2 = true →
      bound ≤ d2 → d2 < st.recs.length →
      childrenOf st d2 = [] →
      copyTree fuel st d2 s2 = some stX →
      copyConc st s2 d2 stX)
    (hbd : bound ≤ dest) :
    ∀ (l : NMap) (st0 stZ : St),
    (∀ kv ∈ l, wfSub st0 fuel kv.2 = true ∧
        subIdsOk st0 bound fuel kv.2 = true ∧
        ciKeyEq kv.1 (nameOf st0 kv.2) = true) →
    keysCiDistinct l = true →
    dest < st0.recs.length →
    l.foldlM (copyStep fuel dest) st0 = some stZ →
    kidsConc st0 dest l stZ := by
  intro l
  induction l with
  | nil =>
      intro st0 stZ _ _ hdlt hfold
      simp only [List.foldlM_nil, pure, Option.some.injEq] at hfold
      subst hfold
      refine ⟨le_refl _, fun j _ _ => rfl, rfl, rfl, ?_⟩
      intro st2 hag c rest
      have hagd : coreOf st2 dest = coreOf st0 dest := hag dest (Or.inl rfl)
      rw [obsSub_cons, children_of_core hagd]
      simp [mfind]
  | cons kv rest ihL =>
      intro st0 stZ hkv hdis hdlt hfold
      rw [List.foldlM_cons] at hfold
      cases hstep : copyStep fuel dest st0 kv with
      | none =>
          rw [hstep] at hfold
          have h2 : (none : Option St) = some stZ := hfold
          simp at h2
      | some stE =>
          rw [hstep] at hfold
          have hfold2 : rest.foldlM (copyStep fuel dest) stE = some stZ := hfold
          clear hfold
          -- dissect the step
          unfold copyStep at hstep
          cases hcr : createSubNode st0 "" 1 0 with
          | none =>
              rw [hcr] at hstep
              have h2 : (none : Option St) = some stE := hstep
              simp at h2
          | some pA =>
              obtain ⟨nid, stA⟩ := pA
              rw [hcr] at hstep
              have hstep2 : (copyTree fuel (setSelfRef stA nid (some nid)) nid
                  kv.2).bind
                  (fun stC => some (setParent (setChildren stC dest
                    (massign (childrenOf stC dest) (nameOf stC nid) nid)) nid
                    (selfOf (setChildren stC dest
                      (massign (childrenOf stC dest) (nameOf stC nid) nid))
                      dest))) = some stE := hstep
              clear hstep
              cases hct : copyTree fuel (setSelfRef stA nid (some nid)) nid kv.2 with
              | none =>
                  rw [hct] at hstep2
                  have h2 : (none : Option St) = some stE := hstep2
                  simp at h2
              | some stC =>
                  rw [hct] at hstep2
                  simp only [Option.some_bind, Option.some.injEq] at hstep2
                  -- name the intermediate states
                  have hkv0 := hkv kv (List.mem_cons_self _ _)
                  obtain ⟨hwkv, hskv, hnkv⟩ := hkv0
                  have hnid : nid = st0.recs.length := (createSubNode_nid hcr).1
                  have hlenA : stA.recs.length = st0.recs.length + 1 :=
                    createSubNode_length hcr
                  have hlenB : (setSelfRef stA nid (some nid)).recs.length =
                      st0.recs.length + 1 := by rw [length_setSelfRef, hlenA]
                  have hdnid : dest ≠ nid := by omega
                  have frame0B : ∀ j, j < bound →
                      coreOf (setSelfRef stA nid (some nid)) j = coreOf st0 j := by
                    intro j hj
                    rw [coreOf_setSelfRef]
                    exact coreOf_createSubNode_lt hcr (by omega)
                  have hwB : wfSub (setSelfRef stA nid (some nid)) fuel kv.2 = true :=
                    wfSub_congr fuel hskv frame0B hwkv
                  have hsB : subIdsOk (setSelfRef stA nid (some nid)) bound fuel kv.2 = true :=
                    subIdsOk_congr fuel hskv frame0B
                  have hBempty : childrenOf (setSelfRef stA nid (some nid)) nid = [] := by
                    rw [childrenOf_setSelfRef]
                    exact childrenOf_createSubNode_self hcr
                  have hconc := ihF (setSelfRef stA nid (some nid)) nid kv.2 stC
                    hwB hsB (by omega) (by omega) hBempty hct
                  obtain ⟨hlenBC, frameC, nameC, obsC⟩ := hconc
                  have hlenC : st0.recs.length + 1 ≤ stC.recs.length := by
                    rw [← hlenB]; exact hlenBC
                  -- dест core is unchanged by the child copy
                  have coreCdest : coreOf stC dest = coreOf st0 dest := by
                    have h1 := frameC dest hdnid (by omega)
                    rw [h1, coreOf_setSelfRef]
                    exact coreOf_createSubNode_lt hcr hdlt
                  have name_nid : nameOf stC nid = nameOf st0 kv.2 := by
                    rw [nameC]
                    exact name_of_core (frame0B kv.2 (subIdsOk_lt hskv))
                  -- the state at the end of this step
                  have hstE : stE = setParent (setChildren stC dest
                      (massign (childrenOf stC dest) (nameOf stC nid) nid)) nid
                      (selfOf (setChildren stC dest
                        (massign (childrenOf stC dest) (nameOf stC nid) nid)) dest) :=
                    hstep2.symm
                  have hlenD : (setChildren stC dest
                      (massign (childrenOf stC dest) (nameOf stC nid) nid)).recs.length =
                      stC.recs.length := length_setChildren _ _ _
                  have hlenE : stE.recs.length = stC.recs.length := by
                    rw [hstE, length_setParent, hlenD]
                  have coreE_eq : ∀ j, j ≠ dest → coreOf stE j = coreOf stC j := by
                    intro j hj
                    rw [hstE, coreOf_setParent,
                      coreOf_setChildren_ne (fun he => hj he.symm)]
                  have childrenEdest : childrenOf stE dest =
                      massign (childrenOf stC dest) (nameOf stC nid) nid := by
                    rw [hstE]
                    rw [childrenOf_setParent]
                    exact childrenOf_setChildren_self (by omega)
                  have childrenCdest : childrenOf stC dest = childrenOf st0 dest :=
                    children_of_core coreCdest
                  -- transfer the hypotheses to stE for the tail of the fold
                  have frame0E : ∀ j, j < bound → coreOf stE j = coreOf st0 j := by
                    intro j hj
                    rw [coreE_eq j (by omega)]
                    have h1 := frameC j (by omega) (by omega)
                    rw [h1]
                    exact frame0B j hj
                  have hkvE : ∀ kv2 ∈ rest, wfSub stE fuel kv2.2 = true ∧
                      subIdsOk stE bound fuel kv2.2 = true ∧
                      ciKeyEq kv2.1 (nameOf stE kv2.2) = true := by
                    intro kv2 hkv2
                    obtain ⟨hw2, hs2, hn2⟩ := hkv kv2 (List.mem_cons_of_mem _ hkv2)
                    refine ⟨wfSub_congr fuel hs2 frame0E hw2,
                      subIdsOk_congr fuel hs2 frame0E, ?_⟩
                    rw [name_of_core (frame0E kv2.2 (subIdsOk_lt hs2))]
                    exact hn2
                  have hrest := ihL stE stZ hkvE (keysCiDistinct_cons.mp hdis).2
                    (by omega) hfold2
                  obtain ⟨hlenEZ, frameZ, obsAtZ, nameZ, obsZ⟩ := hrest
                  -- assemble the bundle for kv :: rest
                  refine ⟨by omega, ?_, ?_, ?_, ?_⟩
                  · -- frame
                    intro j hj hjlt
                    rw [frameZ j hj (by omega), coreE_eq j hj]
                    have h1 := frameC j (by omega) (by omega)
                    rw [h1, coreOf_setSelfRef]
                    exact coreOf_createSubNode_lt hcr hjlt
                  · -- obsAt at dest
                    rw [obsAtZ, hstE, obsAt_of_core (coreOf_setParent _ _ _ _),
                      obsAt_setChildren]
                    exact obsAt_of_core coreCdest
                  · -- name at dest
                    rw [nameZ, hstE]
                    have h1 : nameOf (setParent (setChildren stC dest
                        (massign (childrenOf stC dest) (nameOf stC nid) nid)) nid
                        (selfOf (setChildren stC dest
                          (massign (childrenOf stC dest) (nameOf stC nid) nid)) dest)) dest =
                        nameOf stC dest := by
                      rw [name_of_core (coreOf_setParent _ _ _ _), nameOf_setChildren]
                    rw [h1]
                    exact name_of_core coreCdest
                  · -- the lookup description
                    intro st2 hag c crest
                    have hagE : ∀ j, (j = dest ∨ (stE.recs.length ≤ j ∧
                        j < stZ.recs.length)) → coreOf st2 j = coreOf stZ j := by
                      intro j hjd
                      refine hag j ?_
                      rcases hjd with h1 | h1
                      · exact Or.inl h1
                      · exact Or.inr ⟨by omega, h1.2⟩
                    have hobsE := obsZ st2 hagE c crest
                    rw [hobsE]
                    simp only [mfind]
                    by_cases hc : ciKeyEq kv.1 c
                    · rw [if_pos hc]
                      -- no other entry of rest can match c
                      have hmr : mfind rest c = none := by
                        cases hmr2 : mfind rest c with
                        | none => rfl
                        | some v =>
                            obtain ⟨k0, hmem, hk0⟩ := mfind_key_mem hmr2
                            have hdis1 := (keysCiDistinct_cons.mp hdis).1 (k0, v) hmem
                            have : ciKeyEq k0 kv.1 = true :=
                              ciKeyEq_trans hk0 (ciKeyEq_symm hc)
                            rw [hdis1] at this
                            exact absurd this (by simp)
                      rw [hmr]
                      rw [childrenEdest, mfind_massign]
                      have hcnid : ciKeyEq (nameOf stC nid) c = true := by
                        rw [name_nid]
                        exact ciKeyEq_trans (ciKeyEq_symm hnkv) hc
                      rw [if_pos hcnid]
                      simp only [Option.some_bind]
                      -- apply the child bundle at st2
                      have hagC : ∀ j, (j = nid ∨
                          ((setSelfRef stA nid (some nid)).recs.length ≤ j ∧
                            j < stC.recs.length)) → coreOf st2 j = coreOf stC j := by
                        intro j hjd
                        have hjne : j ≠ dest := by
                          rcases hjd with h1 | h1
                          · omega
                          · rw [hlenB] at h1; omega
                        have hjlt : j < stE.recs.length := by
                          rcases hjd with h1 | h1
                          · omega
                          · omega
                        have h2 : coreOf st2 j = coreOf stZ j := by
                          refine hag j (Or.inr ?_)
                          rcases hjd with h1 | h1
                          · constructor
                            · omega
                            · omega
                          · rw [hlenB] at h1
                            constructor
                            · omega
                            · omega
                        rw [h2, frameZ j hjne hjlt]
                        exact coreE_eq j hjne
                      have h3 := obsC st2 hagC crest
                      rw [h3]
                      exact obsSub_congr fuel hskv frame0B crest
                    · rw [if_neg hc]
                      cases hmr : mfind rest c with
                      | some cid =>
                          simp only
                          obtain ⟨k0, hmem, _⟩ := mfind_key_mem hmr
                          obtain ⟨_, hs2, _⟩ := hkv (k0, cid) (List.mem_cons_of_mem _ hmem)
                          exact obsSub_congr fuel hs2 frame0E crest
                      | none =>
                          simp only
                          rw [childrenEdest, mfind_massign]
                          have hcnid : ¬ ciKeyEq (nameOf stC nid) c = true := by
                            rw [name_nid]
                            intro hx
                            exact hc (ciKeyEq_trans hnkv hx)
                          rw [if_neg hcnid, childrenCdest]

/-- Correctness of one copyTree call, by induction on the fuel. -/
theorem copyTree_correct (fuel : Nat) :
    ∀ (st : St) (dest src : Nat) (stX : St) (bound : Nat),
    wfSub st fuel src = true →
    subIdsOk st bound fuel src = true →
    bound ≤ dest → dest < st.recs.length →
    childrenOf st dest = [] →
    copyTree fuel st dest src = some stX →
    copyConc st src dest stX := by
  induction fuel with
  | zero =>
      intro st dest src stX bound hwf _ _ _ _ _
      simp [wfSub] at hwf
  | succ fuel ihF =>
      intro st dest src stX bound hwf hsub hbd hdlt hempty hct
      obtain ⟨r, hgr, hdisr, hchr⟩ := wfSub_succ.mp hwf
      rw [show copyTree (fuel + 1) st dest src =
          (match getRec st src with
           | none => none
           | some r => r.nodes.foldlM (copyStep fuel dest)
               (copyFields st dest r)) from rfl, hgr] at hct
      have hct2 : r.nodes.foldlM (copyStep fuel dest) (copyFields st dest r) =
          some stX := hct
      have hsrclt : src < bound := subIdsOk_lt hsub
      have hsdne : dest ≠ src := by omega
      have hchsrc : childrenOf st src = r.nodes := by simp [childrenOf, hgr]
      obtain ⟨hsb, hschl⟩ := subIdsOk_succ.mp hsub
      have hlenF : (copyFields st dest r).recs.length = st.recs.length :=
        length_copyFields st dest r
      have frame0F : ∀ j, j < bound → coreOf (copyFields st dest r) j = coreOf st j := by
        intro j hj
        exact coreOf_copyFields_ne (by omega)
      have hkvF : ∀ kv ∈ r.nodes, wfSub (copyFields st dest r) fuel kv.2 = true ∧
          subIdsOk (copyFields st dest r) bound fuel kv.2 = true ∧
          ciKeyEq kv.1 (nameOf (copyFields st dest r) kv.2) = true := by
        intro kv hkvm
        obtain ⟨hnm, hwf2⟩ := hchr kv hkvm
        have hs2 : subIdsOk st bound fuel kv.2 = true := by
          refine hschl kv ?_
          rw [hchsrc]
          exact hkvm
        refine ⟨wfSub_congr fuel hs2 frame0F hwf2,
          subIdsOk_congr fuel hs2 frame0F, ?_⟩
        rw [name_of_core (frame0F kv.2 (subIdsOk_lt hs2))]
        exact hnm
      have hloop := copyKids_correct fuel bound dest
        (fun st2 d2 s2 stX2 => ihF st2 d2 s2 stX2 bound) hbd r.nodes
        (copyFields st dest r) stX hkvF hdisr (by omega) hct2
      obtain ⟨hlen1, frame1, obsAt1, name1, obs1⟩ := hloop
      obtain ⟨d0, hgd0⟩ := getRec_lt_length hdlt
      have hgdF : getRec (copyFields st dest r) dest =
          some { d0 with flags := r.flags, data := r.data, name := r.name } :=
        copyFields_getRec hgd0
      refine ⟨by omega, ?_, ?_, ?_⟩
      · intro j hj hjlt
        rw [frame1 j hj (by omega)]
        exact coreOf_copyFields_ne (fun he => hj he.symm)
      · rw [name1]
        have h1 : nameOf (copyFields st dest r) dest = r.name := by
          simp [nameOf, hgdF]
        have h2 : nameOf st src = r.name := by simp [nameOf, hgr]
        rw [h1, h2]
      · intro st2 hag p
        cases p with
        | nil =>
            have h1 : obsAt st2 dest = obsAt stX dest :=
              obsAt_of_core (hag dest (Or.inl rfl))
            have h2 : obsAt (copyFields st dest r) dest = some (r.flags, r.data) := by
              simp [obsAt, hgdF]
            have h3 : obsAt st src = some (r.flags, r.data) := by
              simp [obsAt, hgr]
            show obsAt st2 dest = obsAt st src
            rw [h1, obsAt1, h2, h3]
        | cons c crest =>
            have hag2 : ∀ j, (j = dest ∨
                ((copyFields st dest r).recs.length ≤ j ∧ j < stX.recs.length)) →
                coreOf st2 j = coreOf stX j := by
              intro j hjd
              refine hag j ?_
              rcases hjd with h1 | h1
              · exact Or.inl h1
              · rw [hlenF] at h1
                exact Or.inr h1
            have h1 := obs1 st2 hag2 c crest
            rw [h1, obsSub_cons, hchsrc]
            cases hmf : mfind r.nodes c with
            | some cid =>
                simp only [Option.some_bind]
                obtain ⟨k0, hmem, _⟩ := mfind_key_mem hmf
                have hs2 : subIdsOk st bound fuel cid = true := by
                  refine hschl (k0, cid) ?_
                  rw [hchsrc]
                  exact hmem
                exact obsSub_congr fuel hs2 frame0F crest
            | none =>
                simp only [Option.none_bind]
                rw [childrenOf_copyFields, hempty]
                rfl

/-- C5.  Deep-copy migration (the TreeMeta construction in the fresh arena
followed by copyTree) produces a destination tree structurally equal to the
source tree: at every path, the lookup finds a node on one side iff it does
on the other, with the same flags and an equal payload (and the roots agree
likewise).  The hypotheses ask that the source subtree is well formed (its
child keys are case-insensitively distinct and agree with the child names,
as the container operations maintain), that its node indices are valid, and
that the fuel covers its depth. -/
theorem c5_copy (fuel : Nat) (st : St) (src nroot : Nat) (stX : St)
    (hwf : wfSub st fuel src = true)
    (hsub : subIdsOk st st.recs.length fuel src = true)
    (hmig : migrate st src fuel = some (nroot, stX)) :
    ∀ p, obsSub stX nroot p = obsSub st src p := by
  unfold migrate at hmig
  cases hcr : createSubNode st "" 1 0 with
  | none =>
      rw [hcr] at hmig
      have h2 : (none : Option (Nat × St)) = some (nroot, stX) := hmig
      simp at h2
  | some pA =>
      obtain ⟨nr, st1⟩ := pA
      rw [hcr] at hmig
      have hmig2 : (copyTree fuel st1 nr src).bind
          (fun st2 => some (nr, st2)) = some (nroot, stX) := hmig
      clear hmig
      cases hct : copyTree fuel st1 nr src with
      | none =>
          rw [hct] at hmig2
          have h2 : (none : Option (Nat × St)) = some (nroot, stX) := hmig2
          simp at h2
      | some st2 =>
          rw [hct] at hmig2
          simp only [Option.some_bind, Option.some.injEq, Prod.mk.injEq] at hmig2
          obtain ⟨he1, he2⟩ := hmig2
          subst he1
          subst he2
          have hnr : nr = st.recs.length := (createSubNode_nid hcr).1
          have hlen1 : st1.recs.length = st.recs.length + 1 :=
        createSubNode_length hcr
          have frame01 : ∀ j, j < st.recs.length → coreOf st1 j = coreOf st j :=
            fun j hj => coreOf_createSubNode_lt hcr hj
          have hw1 : wfSub st1 fuel src = true :=
            wfSub_congr fuel hsub frame01 hwf
          have hs1 : subIdsOk st1 st.recs.length fuel src = true :=
            subIdsOk_congr fuel hsub frame01
          have hempty : childrenOf st1 nr = [] :=
            childrenOf_createSubNode_self hcr
          have hconc := copyTree_correct fuel st1 nr src st2 st.recs.length
            hw1 hs1 (by omega) (by omega) hempty hct
          obtain ⟨_, _, _, hobs⟩ := hconc
          intro p
          have h1 := hobs st2 (fun j _ => rfl) p
          rw [h1]
          exact obsSub_congr fuel hsub frame01 p

/-- C5 witness: migrating the three-file C7 tree and comparing the
observation at one of the file paths. -/
theorem c5_copy_witness :
    obsSub c5dest 7 ["a", "b", "c1.txt"] =
      obsSub c7st rootId ["a", "b", "c1.txt"] :=
  c5_copy 20 c7st rootId 7 c5dest (by decide) (by decide) rfl
    ["a", "b", "c1.txt"]

end Usvfs
